import Mathlib

/-!
Verification development for the Open/R KvStore and Decision/SPF subsystems.

The definitions below are shallow embeddings of the C++ sources:
  - openr/decision/LinkState.cpp   (Link, runSpf, traceOnePath, getKthPaths,
                                    resolveUcmpWeights)
  - openr/decision/SpfSolver.cpp   (DecisionRouteDb::calculateUpdate,
                                    DecisionRouteDb::update, buildRouteDb label
                                    selection, filterDrainedNodes)
  - openr/kvstore/KvStore.h        (KvStoreDb declarations; merge semantics and
                                    the peer FSM are modelled from the spec as
                                    their implementation files are not part of
                                    this snapshot)

C++ `std::unordered_map` values are embedded as association lists
(`List (K × V)`); maps in the real program have unique keys, which appears
below as explicit `Nodup` hypotheses where a proof needs it.
-/

namespace openr

/-! ## Association-list maps (embedding of std::unordered_map) -/

/-- Lookup in an association list; embeds `std::unordered_map::find`. -/
def alookup {K V : Type} [DecidableEq K] : List (K × V) → K → Option V
  | [], _ => none
  | (k, v) :: rest, key => if k = key then some v else alookup rest key

/-- Erase every binding of a key; embeds `std::unordered_map::erase(key)`. -/
def aerase {K V : Type} [DecidableEq K] (l : List (K × V)) (key : K) :
    List (K × V) :=
  l.filter (fun kv => kv.1 ≠ key)

/-- Replace the binding of a key or append a new one; embeds
`std::unordered_map::insert_or_assign`. -/
def ainsert {K V : Type} [DecidableEq K] : List (K × V) → K → V → List (K × V)
  | [], key, v => [(key, v)]
  | (k, w) :: rest, key, v =>
      if k = key then (key, v) :: rest else (k, w) :: ainsert rest key v

/-- Keys of an association list. -/
def akeys {K V : Type} (l : List (K × V)) : List K := l.map Prod.fst

theorem alookup_eq_none {K V : Type} [DecidableEq K] (l : List (K × V))
    (key : K) : alookup l key = none ↔ ∀ v : V, (key, v) ∉ l := by
  induction l with
  | nil => simp [alookup]
  | cons kv rest ih =>
      obtain ⟨k, v⟩ := kv
      by_cases hk : k = key
      · subst hk
        simp only [alookup, if_pos rfl]
        constructor
        · intro h
          exact absurd h (by simp)
        · intro h
          exact absurd (List.mem_cons_self _ _) (h v)
      · simp only [alookup, if_neg hk, ih, List.mem_cons]
        constructor
        · intro h w hw
          rcases hw with hw | hw
          · exact hk (congrArg Prod.fst hw).symm
          · exact h w hw
        · intro h w hw
          exact h w (Or.inr hw)

theorem alookup_mem {K V : Type} [DecidableEq K] {l : List (K × V)} {key : K}
    {v : V} (h : alookup l key = some v) : (key, v) ∈ l := by
  induction l with
  | nil => simp [alookup] at h
  | cons kv rest ih =>
      obtain ⟨k, w⟩ := kv
      by_cases hk : k = key
      · subst hk
        have hwv : w = v := by
          have : (if k = k then some w else alookup rest k) = some v := h
          rw [if_pos rfl] at this
          exact Option.some.inj this
        subst hwv
        exact List.mem_cons_self _ _
      · simp only [alookup, if_neg hk] at h
        exact List.mem_cons_of_mem _ (ih h)

theorem mem_alookup {K V : Type} [DecidableEq K] {l : List (K × V)} {key : K}
    {v : V} (hnd : (akeys l).Nodup) (h : (key, v) ∈ l) :
    alookup l key = some v := by
  induction l with
  | nil => simp at h
  | cons kv rest ih =>
      obtain ⟨k, w⟩ := kv
      simp only [akeys, List.map_cons, List.nodup_cons] at hnd
      rcases List.mem_cons.mp h with h | h
      · injection h with h1 h2
        subst h1; subst h2
        simp [alookup]
      · have hk : k ≠ key := by
          intro hk
          subst hk
          exact hnd.1 (List.mem_map.mpr ⟨(k, v), h, rfl⟩)
        simp only [alookup, if_neg hk]
        exact ih hnd.2 h

/-! ## DecisionRouteDb (openr/decision/SpfSolver.cpp) -/

/-- Unicast RIB entry. Only the fields relevant to route-db diffing are kept:
the destination prefix (the map key used by `addRouteToUpdate` and
`DecisionRouteDb::update`) and an opaque payload standing for the remaining
attributes (next-hops, best prefix entry, ...). `P` is the prefix type and
`N` the payload type. -/
structure RibUnicastEntry (P N : Type) where
  pfx : P
  payload : N
deriving DecidableEq

/-- MPLS RIB entry, keyed by label. `L` is the label type and `M` the payload
type. -/
structure RibMplsEntry (L M : Type) where
  label : L
  payload : M
deriving DecidableEq

/-- Route database with a unicast map keyed by prefix and an MPLS map keyed by
label, as in `DecisionRouteDb`. -/
structure DecisionRouteDb (P L N M : Type) where
  unicastRoutes : List (P × RibUnicastEntry P N)
  mplsRoutes : List (L × RibMplsEntry L M)

/-- Delta produced by `DecisionRouteDb::calculateUpdate`. `addRouteToUpdate`
stores an entry keyed by its own prefix, and `addMplsRouteToUpdate` keyed by
its own label. -/
structure DecisionRouteUpdate (P L N M : Type) where
  unicastRoutesToUpdate : List (P × RibUnicastEntry P N)
  unicastRoutesToDelete : List P
  mplsRoutesToUpdate : List (L × RibMplsEntry L M)
  mplsRoutesToDelete : List L

/-- Update list for one route family, as computed by the two
`...RoutesToUpdate` loops of `DecisionRouteDb::calculateUpdate`: a `newDb`
entry is added (via `addRouteToUpdate` / `addMplsRouteToUpdate`, keyed by the
entry's own key field `keyOf`) when `old` has no binding or a different value
for its map key. -/
def routesToUpdateOf {K V : Type} [DecidableEq K] [DecidableEq V]
    (keyOf : V → K) (old newDb : List (K × V)) : List (K × V) :=
  (newDb.filter (fun kv =>
    match alookup old kv.1 with
    | none => true
    | some e => decide (e ≠ kv.2))).map (fun kv => (keyOf kv.2, kv.2))

/-- Delete list for one route family, as computed by the two
`...RoutesToDelete` loops of `DecisionRouteDb::calculateUpdate`: keys of `old`
that `newDb` does not bind. -/
def routesToDeleteOf {K V : Type} [DecidableEq K]
    (old newDb : List (K × V)) : List K :=
  (old.filter (fun kv => (alookup newDb kv.1).isNone)).map Prod.fst

/-- Embedding of `DecisionRouteDb::calculateUpdate(newDb)`: an entry of `newDb`
goes to the update list when the receiver (`old`) has no binding for its key or
a binding with a different value; a key of `old` goes to the delete list when
`newDb` has no binding for it. Both route families are treated independently. -/
def DecisionRouteDb.calculateUpdate {P L N M : Type} [DecidableEq P]
    [DecidableEq L] [DecidableEq N] [DecidableEq M]
    (old newDb : DecisionRouteDb P L N M) : DecisionRouteUpdate P L N M :=
  { unicastRoutesToUpdate :=
      routesToUpdateOf (fun e => e.pfx) old.unicastRoutes newDb.unicastRoutes
    unicastRoutesToDelete :=
      routesToDeleteOf old.unicastRoutes newDb.unicastRoutes
    mplsRoutesToUpdate :=
      routesToUpdateOf (fun e => e.label) old.mplsRoutes newDb.mplsRoutes
    mplsRoutesToDelete :=
      routesToDeleteOf old.mplsRoutes newDb.mplsRoutes }

/-- One route family of `DecisionRouteDb::update(update)`: erase every key in
the delete list, then `insert_or_assign` every entry of the update list keyed
by the entry's own key field. -/
def applyDelta {K V : Type} [DecidableEq K] (keyOf : V → K)
    (db : List (K × V)) (dels : List K) (ups : List (K × V)) : List (K × V) :=
  ups.foldl (fun m kv => ainsert m (keyOf kv.2) kv.2)
    (dels.foldl (fun m k => aerase m k) db)

/-- Embedding of `DecisionRouteDb::update(update)` for both route families. -/
def DecisionRouteDb.update {P L N M : Type} [DecidableEq P] [DecidableEq L]
    (db : DecisionRouteDb P L N M) (u : DecisionRouteUpdate P L N M) :
    DecisionRouteDb P L N M :=
  { unicastRoutes := applyDelta (fun e => e.pfx) db.unicastRoutes
      u.unicastRoutesToDelete u.unicastRoutesToUpdate
    mplsRoutes := applyDelta (fun e => e.label) db.mplsRoutes
      u.mplsRoutesToDelete u.mplsRoutesToUpdate }

/-- Well-formedness invariant of a route map held by `DecisionRouteDb`: keys
are unique (it is a `std::unordered_map`) and every entry is stored at its own
key. -/
def mapWf {K V : Type} (l : List (K × V)) (keyOf : V → K) : Prop :=
  (akeys l).Nodup ∧ ∀ kv ∈ l, keyOf kv.2 = kv.1

theorem alookup_isSome {K V : Type} [DecidableEq K] (l : List (K × V))
    (key : K) : (alookup l key).isSome ↔ ∃ v : V, (key, v) ∈ l := by
  rcases h : alookup l key with _ | v
  · simp only [Option.isSome_none, Bool.false_eq_true, false_iff]
    rintro ⟨v, hv⟩
    exact (alookup_eq_none l key).mp h v hv
  · simp only [Option.isSome_some, true_iff]
    exact ⟨v, alookup_mem h⟩

theorem alookup_aerase_self {K V : Type} [DecidableEq K] (l : List (K × V))
    (p : K) : alookup (aerase l p) p = none := by
  rw [alookup_eq_none]
  intro v hv
  have hmem := List.mem_filter.mp hv
  simp at hmem

theorem alookup_aerase_ne {K V : Type} [DecidableEq K] (l : List (K × V))
    (p k : K) (h : k ≠ p) : alookup (aerase l p) k = alookup l k := by
  induction l with
  | nil => rfl
  | cons kv rest ih =>
      obtain ⟨a, v⟩ := kv
      by_cases hap : a = p
      · subst hap
        have h0 : ¬ a = k := fun hh => h hh.symm
        have h1 : aerase ((a, v) :: rest) a = aerase rest a := by
          simp [aerase]
        rw [h1, ih]
        simp [alookup, h0]
      · have h1 : aerase ((a, v) :: rest) p = (a, v) :: aerase rest p := by
          simp [aerase, hap]
        rw [h1]
        simp [alookup, ih]

theorem alookup_aerase {K V : Type} [DecidableEq K] (l : List (K × V))
    (p k : K) : alookup (aerase l p) k = if k = p then none else alookup l k := by
  by_cases h : k = p
  · subst h
    simp [alookup_aerase_self]
  · simp [h, alookup_aerase_ne l p k h]

theorem alookup_foldl_aerase {K V : Type} [DecidableEq K] (ds : List K)
    (m : List (K × V)) (k : K) :
    alookup (ds.foldl (fun m p => aerase m p) m) k =
      if k ∈ ds then none else alookup m k := by
  induction ds generalizing m with
  | nil => simp
  | cons d ds ih =>
      simp only [List.foldl_cons, ih, alookup_aerase, List.mem_cons]
      by_cases hd : k = d
      · simp [hd]
      · by_cases hds : k ∈ ds <;> simp [hd, hds]

theorem alookup_ainsert_self {K V : Type} [DecidableEq K] (m : List (K × V))
    (k : K) (v : V) : alookup (ainsert m k v) k = some v := by
  induction m with
  | nil => simp [ainsert, alookup]
  | cons kv rest ih =>
      obtain ⟨a, w⟩ := kv
      by_cases hak : a = k
      · simp [ainsert, hak, alookup]
      · simp [ainsert, hak, alookup, ih]

theorem alookup_ainsert_ne {K V : Type} [DecidableEq K] (m : List (K × V))
    (k : K) (v : V) (k' : K) (h : k' ≠ k) :
    alookup (ainsert m k v) k' = alookup m k' := by
  have h0 : ¬ k = k' := fun hh => h hh.symm
  induction m with
  | nil => simp [ainsert, alookup, h0]
  | cons kv rest ih =>
      obtain ⟨a, w⟩ := kv
      by_cases hak : a = k
      · subst hak
        simp only [ainsert, if_pos rfl]
        simp [alookup, h0]
      · simp only [ainsert, if_neg hak]
        simp [alookup, ih]

theorem alookup_foldl_ainsert_not_mem {K V : Type} [DecidableEq K]
    (keyOf : V → K) (us : List (K × V)) (m : List (K × V)) (k : K)
    (h : ∀ kv ∈ us, keyOf (Prod.snd kv) ≠ k) :
    alookup (us.foldl (fun m kv => ainsert m (keyOf kv.2) kv.2) m) k =
      alookup m k := by
  induction us generalizing m with
  | nil => simp
  | cons b us ih =>
      simp only [List.foldl_cons]
      rw [ih _ (fun c hc => h c (List.mem_cons_of_mem _ hc))]
      exact alookup_ainsert_ne m (keyOf b.2) b.2 k
        (fun hh => h b (List.mem_cons_self _ _) hh.symm)

theorem alookup_foldl_ainsert_mem {K V : Type} [DecidableEq K]
    (keyOf : V → K) (us : List (K × V)) (m : List (K × V)) (k : K)
    (kv : K × V) (ha : kv ∈ us) (hk : keyOf kv.2 = k)
    (hnd : (us.map (fun kv => keyOf kv.2)).Nodup) :
    alookup (us.foldl (fun m kv => ainsert m (keyOf kv.2) kv.2) m) k =
      some kv.2 := by
  induction us generalizing m with
  | nil => simp at ha
  | cons b us ih =>
      simp only [List.map_cons, List.nodup_cons] at hnd
      rcases List.mem_cons.mp ha with hab | ha'
      · subst hab
        simp only [List.foldl_cons]
        rw [alookup_foldl_ainsert_not_mem]
        · rw [← hk]
          exact alookup_ainsert_self m (keyOf kv.2) kv.2
        · intro c hc hck
          exact hnd.1 (hk ▸ hck ▸ List.mem_map.mpr ⟨c, hc, rfl⟩)
      · simp only [List.foldl_cons]
        exact ih _ ha' hnd.2

/-- Membership characterization of one family delete list. -/
theorem mem_routesToDeleteOf {K V : Type} [DecidableEq K]
    (old newDb : List (K × V)) (k : K) :
    k ∈ routesToDeleteOf old newDb ↔
      (alookup old k).isSome ∧ alookup newDb k = none := by
  simp only [routesToDeleteOf, List.mem_map, List.mem_filter]
  constructor
  · rintro ⟨⟨q, v⟩, ⟨hmem, hnone⟩, rfl⟩
    refine ⟨(alookup_isSome _ _).mpr ⟨v, hmem⟩, ?_⟩
    have hnone' : (alookup newDb q).isNone = true := hnone
    exact Option.isNone_iff_eq_none.mp hnone'
  · rintro ⟨hsome, hnone⟩
    obtain ⟨v, hv⟩ := (alookup_isSome _ _).mp hsome
    refine ⟨(k, v), ⟨hv, ?_⟩, rfl⟩
    show (alookup newDb k).isNone = true
    rw [hnone]
    rfl

/-- Membership characterization of one family update list, for a well-formed
new map. -/
theorem mem_routesToUpdateOf {K V : Type} [DecidableEq K] [DecidableEq V]
    (keyOf : V → K) (old newDb : List (K × V))
    (hwf : mapWf newDb keyOf) (k : K) (v : V) :
    (k, v) ∈ routesToUpdateOf keyOf old newDb ↔
      alookup newDb k = some v ∧ alookup old k ≠ some v := by
  simp only [routesToUpdateOf, List.mem_map, List.mem_filter]
  constructor
  · rintro ⟨⟨q, w⟩, ⟨hmem, hcond⟩, heq⟩
    have hkey : keyOf w = k := congrArg Prod.fst heq
    have hval : w = v := congrArg Prod.snd heq
    subst hval
    have h2 : keyOf w = q := hwf.2 (q, w) hmem
    have hq : q = k := h2.symm.trans hkey
    subst hq
    refine ⟨mem_alookup hwf.1 hmem, ?_⟩
    intro hcontra
    have hcond' :
        (match alookup old q with
          | none => true
          | some e => decide (e ≠ w)) = true := hcond
    rw [hcontra] at hcond'
    simp at hcond'
  · rintro ⟨hnew, hold⟩
    have hmem := alookup_mem hnew
    refine ⟨(k, v), ⟨hmem, ?_⟩, ?_⟩
    · show (match alookup old k with
        | none => true
        | some e => decide (e ≠ v)) = true
      rcases holde : alookup old k with _ | e
      · rfl
      · simp only [decide_eq_true_eq]
        intro he
        subst he
        exact hold holde
    · show (keyOf v, v) = (k, v)
      rw [hwf.2 (k, v) hmem]

/-- Diff-then-apply round trip for one route family: applying the delta
computed against `newDb` to `old` yields a map extensionally equal to
`newDb`. -/
theorem applyDelta_roundtrip {K V : Type} [DecidableEq K] [DecidableEq V]
    (keyOf : V → K) (old newDb : List (K × V)) (hwf : mapWf newDb keyOf)
    (k : K) :
    alookup (applyDelta keyOf old (routesToDeleteOf old newDb)
      (routesToUpdateOf keyOf old newDb)) k = alookup newDb k := by
  have hupkeys : ∀ kv ∈ routesToUpdateOf keyOf old newDb,
      (alookup newDb (keyOf (Prod.snd kv))).isSome := by
    rintro ⟨q, w⟩ hmem
    simp only [routesToUpdateOf, List.mem_map, List.mem_filter] at hmem
    obtain ⟨⟨q0, w0⟩, ⟨hq0, _⟩, heq⟩ := hmem
    have hw : w0 = w := congrArg Prod.snd heq
    subst hw
    have hqk : keyOf w0 = q0 := hwf.2 (q0, w0) hq0
    show (alookup newDb (keyOf w0)).isSome
    rw [hqk]
    exact (alookup_isSome _ _).mpr ⟨w0, hq0⟩
  rcases hnew : alookup newDb k with _ | e
  · -- `newDb` does not bind `k`: no update entry has this key, and any old
    -- binding is erased via the delete list.
    rw [applyDelta, alookup_foldl_ainsert_not_mem keyOf]
    · rw [alookup_foldl_aerase]
      by_cases hdel : k ∈ routesToDeleteOf old newDb
      · simp [hdel]
      · simp only [if_neg hdel]
        rcases holde : alookup old k with _ | e0
        · rfl
        · exact absurd ((mem_routesToDeleteOf old newDb k).mpr
            ⟨by rw [holde]; rfl, hnew⟩) hdel
    · intro kv hkv hkey
      have hs := hupkeys kv hkv
      rw [hkey, hnew] at hs
      simp at hs
  · have hnotdel : k ∉ routesToDeleteOf old newDb := by
      intro hdel
      have hd := ((mem_routesToDeleteOf old newDb k).mp hdel).2
      rw [hnew] at hd
      cases hd
    by_cases hold : alookup old k = some e
    · -- unchanged binding: neither deleted nor updated.
      rw [applyDelta, alookup_foldl_ainsert_not_mem keyOf]
      · rw [alookup_foldl_aerase, if_neg hnotdel, hold]
      · rintro ⟨q, w⟩ hkv hkey
        have hiff := (mem_routesToUpdateOf keyOf old newDb hwf q w).mp hkv
        have h2 : keyOf w = q := hwf.2 (q, w) (alookup_mem hiff.1)
        have hq : q = k := h2.symm.trans hkey
        subst hq
        have hwe : w = e := by
          have hh := hiff.1
          rw [hnew] at hh
          exact (Option.some.inj hh).symm
        subst hwe
        exact hiff.2 hold
    · -- changed or new binding: the update list rebinds `k`.
      have hmemup : (k, e) ∈ routesToUpdateOf keyOf old newDb := by
        rw [mem_routesToUpdateOf keyOf old newDb hwf]
        exact ⟨hnew, hold⟩
      have hndkeys : ((routesToUpdateOf keyOf old newDb).map
          (fun kv => keyOf kv.2)).Nodup := by
        have hcong : (routesToUpdateOf keyOf old newDb).map
            (fun kv => keyOf kv.2) =
            (newDb.filter (fun kv =>
              match alookup old kv.1 with
              | none => true
              | some e => decide (e ≠ kv.2))).map Prod.fst := by
          simp only [routesToUpdateOf, List.map_map]
          refine List.map_congr_left ?_
          rintro ⟨q, w⟩ hq
          exact hwf.2 (q, w) (List.mem_filter.mp hq).1
        rw [hcong]
        exact ((List.filter_sublist _).map Prod.fst).nodup hwf.1
      rw [applyDelta]
      exact alookup_foldl_ainsert_mem keyOf _ _ k (k, e) hmemup
        (hwf.2 (k, e) (alookup_mem hnew)) hndkeys

/-- C8: for every pair of route databases, `DecisionRouteDb::calculateUpdate`
puts a key into the delete list iff the key is bound in the old database and
unbound in the new one, and puts an entry into the update list iff its key is
bound in the new database to that entry and the old database does not bind the
key to an equal entry; this holds independently for the unicast (keyed by
prefix) and MPLS (keyed by label) route families. -/
theorem calculateUpdate_delta_spec {P L N M : Type} [DecidableEq P]
    [DecidableEq L] [DecidableEq N] [DecidableEq M]
    (old newDb : DecisionRouteDb P L N M)
    (hwfU : mapWf newDb.unicastRoutes (fun e => e.pfx))
    (hwfM : mapWf newDb.mplsRoutes (fun e => e.label)) :
    (∀ p : P, p ∈ (old.calculateUpdate newDb).unicastRoutesToDelete ↔
      (alookup old.unicastRoutes p).isSome ∧
        alookup newDb.unicastRoutes p = none) ∧
    (∀ (p : P) (e : RibUnicastEntry P N),
      (p, e) ∈ (old.calculateUpdate newDb).unicastRoutesToUpdate ↔
        alookup newDb.unicastRoutes p = some e ∧
          alookup old.unicastRoutes p ≠ some e) ∧
    (∀ l : L, l ∈ (old.calculateUpdate newDb).mplsRoutesToDelete ↔
      (alookup old.mplsRoutes l).isSome ∧
        alookup newDb.mplsRoutes l = none) ∧
    (∀ (l : L) (e : RibMplsEntry L M),
      (l, e) ∈ (old.calculateUpdate newDb).mplsRoutesToUpdate ↔
        alookup newDb.mplsRoutes l = some e ∧
          alookup old.mplsRoutes l ≠ some e) :=
  ⟨fun p => mem_routesToDeleteOf _ _ p,
   fun p e => mem_routesToUpdateOf _ _ _ hwfU p e,
   fun l => mem_routesToDeleteOf _ _ l,
   fun l e => mem_routesToUpdateOf _ _ _ hwfM l e⟩

/-- Witness for `calculateUpdate_delta_spec` at a concrete pair of databases:
key 3 is bound in the old unicast map and absent from the new one, so it lands
in the delete list. -/
theorem calculateUpdate_delta_spec_witness :
    (3 : ℕ) ∈ (DecisionRouteDb.calculateUpdate
      (⟨[(2, ⟨2, 21⟩), (3, ⟨3, 30⟩)], [(7, ⟨7, 70⟩)]⟩ :
        DecisionRouteDb ℕ ℕ ℕ ℕ)
      ⟨[(1, ⟨1, 10⟩), (2, ⟨2, 20⟩)], [(5, ⟨5, 50⟩)]⟩).unicastRoutesToDelete := by
  have h := calculateUpdate_delta_spec
    (⟨[(2, ⟨2, 21⟩), (3, ⟨3, 30⟩)], [(7, ⟨7, 70⟩)]⟩ : DecisionRouteDb ℕ ℕ ℕ ℕ)
    ⟨[(1, ⟨1, 10⟩), (2, ⟨2, 20⟩)], [(5, ⟨5, 50⟩)]⟩
    ⟨by decide, by decide⟩ ⟨by decide, by decide⟩
  exact (h.1 3).mpr (by decide)

/-- C10: applying the delta `old.calculateUpdate(new)` to `old` via
`DecisionRouteDb::update` yields a database whose unicast and MPLS maps are
extensionally equal to those of `new` (diff-then-apply round trip). -/
theorem calculateUpdate_update_roundtrip {P L N M : Type} [DecidableEq P]
    [DecidableEq L] [DecidableEq N] [DecidableEq M]
    (old newDb : DecisionRouteDb P L N M)
    (hwfU : mapWf newDb.unicastRoutes (fun e => e.pfx))
    (hwfM : mapWf newDb.mplsRoutes (fun e => e.label)) :
    (∀ p : P,
      alookup (old.update (old.calculateUpdate newDb)).unicastRoutes p =
        alookup newDb.unicastRoutes p) ∧
    (∀ l : L,
      alookup (old.update (old.calculateUpdate newDb)).mplsRoutes l =
        alookup newDb.mplsRoutes l) :=
  ⟨fun p => applyDelta_roundtrip _ _ _ hwfU p,
   fun l => applyDelta_roundtrip _ _ _ hwfM l⟩

/-- Witness for `calculateUpdate_update_roundtrip` at a concrete pair of
databases: after diff-then-apply, key 2 is bound to the new entry. -/
theorem calculateUpdate_update_roundtrip_witness :
    alookup (DecisionRouteDb.update
      (⟨[(2, ⟨2, 21⟩), (3, ⟨3, 30⟩)], [(7, ⟨7, 70⟩)]⟩ :
        DecisionRouteDb ℕ ℕ ℕ ℕ)
      (DecisionRouteDb.calculateUpdate
        ⟨[(2, ⟨2, 21⟩), (3, ⟨3, 30⟩)], [(7, ⟨7, 70⟩)]⟩
        ⟨[(1, ⟨1, 10⟩), (2, ⟨2, 20⟩)], [(5, ⟨5, 50⟩)]⟩)).unicastRoutes 2 =
    alookup ([(1, ⟨1, 10⟩), (2, ⟨2, 20⟩)] :
      List (ℕ × RibUnicastEntry ℕ ℕ)) 2 := by
  have h := calculateUpdate_update_roundtrip
    (⟨[(2, ⟨2, 21⟩), (3, ⟨3, 30⟩)], [(7, ⟨7, 70⟩)]⟩ : DecisionRouteDb ℕ ℕ ℕ ℕ)
    ⟨[(1, ⟨1, 10⟩), (2, ⟨2, 20⟩)], [(5, ⟨5, 50⟩)]⟩
    ⟨by decide, by decide⟩ ⟨by decide, by decide⟩
  exact h.1 2

/-! ## SpfSolver drain filtering (openr/decision/SpfSolver.cpp) -/

/-- Per-area link-state facts consumed by `SpfSolver::filterDrainedNodes`:
`isNodeOverloaded area node` is the hard-drain (overload) bit and
`getNodeMetricIncrement area node` the soft-drain value
(`nodeMetricIncrementVal`, an `i32` in the thrift schema, read through
`LinkState::getNodeMetricIncrement`). -/
structure AreaLinkStates where
  isNodeOverloaded : String → String → Bool
  getNodeMetricIncrement : String → String → Int

/-- A `PrefixEntries` map: `(node, area)` keys with an opaque prefix-entry
payload. -/
abbrev PrefixEntries (α : Type) : Type := List ((String × String) × α)

/-- Embedding of `SpfSolver::filterHardDrainedNodes`: erase every candidate
whose node is overloaded in its area; if that erases everything, return the
original candidates. -/
def filterHardDrainedNodes {α : Type} (prefixes : PrefixEntries α)
    (st : AreaLinkStates) : PrefixEntries α :=
  let filtered := prefixes.filter
    (fun pe => ! st.isNodeOverloaded pe.1.2 pe.1.1)
  if filtered.isEmpty then prefixes else filtered

/-- Loop body of `SpfSolver::filterSoftDrainedNodes`: `s` is the pair of the
running `minVal` (initially `INT32_MAX`) and `filteredEntries`; a smaller
soft-drain value resets both, an equal one appends the candidate. -/
def softStep {A : Type} (f : A → Int) (s : Int × List A) (a : A) :
    Int × List A :=
  let softDrainValue := f a
  let s1 := if softDrainValue < s.1 then (softDrainValue, ([] : List A)) else s
  if softDrainValue = s1.1 then (s1.1, s1.2 ++ [a]) else s1

/-- Embedding of `SpfSolver::filterSoftDrainedNodes`: keep the candidates
whose soft-drain value equals the running minimum, starting from
`INT32_MAX`. -/
def filterSoftDrainedNodes {α : Type} (prefixes : PrefixEntries α)
    (st : AreaLinkStates) : PrefixEntries α :=
  (prefixes.foldl
    (softStep (fun pe => st.getNodeMetricIncrement pe.1.2 pe.1.1))
    ((2147483647 : Int), [])).2

/-- Embedding of `SpfSolver::filterDrainedNodes`: hard-drain filter first,
then soft-drain filter on the remainder. -/
def filterDrainedNodes {α : Type} (prefixes : PrefixEntries α)
    (st : AreaLinkStates) : PrefixEntries α :=
  filterSoftDrainedNodes (filterHardDrainedNodes prefixes st) st

theorem softFold_spec {A : Type} (f : A → Int) (l : List A) :
    ∀ (m : Int) (acc : List A), (∀ a ∈ acc, f a = m) →
      ((l.foldl (softStep f) (m, acc)).1 ≤ m ∧
       (∀ a ∈ l, (l.foldl (softStep f) (m, acc)).1 ≤ f a) ∧
       ((l.foldl (softStep f) (m, acc)).1 = m ∨
         ∃ a ∈ l, f a = (l.foldl (softStep f) (m, acc)).1) ∧
       (∀ x, x ∈ (l.foldl (softStep f) (m, acc)).2 ↔
         ((l.foldl (softStep f) (m, acc)).1 = m ∧ x ∈ acc) ∨
           (x ∈ l ∧ f x = (l.foldl (softStep f) (m, acc)).1))) := by
  induction l with
  | nil =>
      intro m acc hacc
      refine ⟨le_refl _, by simp, Or.inl rfl, ?_⟩
      intro x
      simp
  | cons b t ih =>
      intro m acc hacc
      simp only [List.foldl_cons]
      rcases lt_trichotomy (f b) m with hlt | heq | hgt
      · -- strictly smaller: reset the running minimum and the accumulator
        have hstep : softStep f (m, acc) b = (f b, [b]) := by
          simp [softStep, hlt]
        rw [hstep]
        obtain ⟨h1, h2, h3, h4⟩ := ih (f b) [b] (by simp)
        refine ⟨le_of_lt (lt_of_le_of_lt h1 hlt), ?_, ?_, ?_⟩
        · intro a ha
          rcases List.mem_cons.mp ha with rfl | ha'
          · exact h1
          · exact h2 a ha'
        · rcases h3 with h3 | ⟨a, ha, hfa⟩
          · exact Or.inr ⟨b, List.mem_cons_self _ _, h3.symm⟩
          · exact Or.inr ⟨a, List.mem_cons_of_mem _ ha, hfa⟩
        · intro x
          rw [h4 x]
          constructor
          · rintro (⟨hm, hx⟩ | ⟨hx, hfx⟩)
            · have hxb : x = b := by simpa using hx
              subst hxb
              exact Or.inr ⟨List.mem_cons_self _ _, hm.symm⟩
            · exact Or.inr ⟨List.mem_cons_of_mem _ hx, hfx⟩
          · rintro (⟨hm, _⟩ | ⟨hx, hfx⟩)
            · exfalso
              have : (t.foldl (softStep f) (f b, [b])).1 < m :=
                lt_of_le_of_lt h1 hlt
              omega
            · rcases List.mem_cons.mp hx with rfl | hx'
              · exact Or.inl ⟨hfx.symm, by simp⟩
              · exact Or.inr ⟨hx', hfx⟩
      · -- equal: append the candidate
        have hstep : softStep f (m, acc) b = (m, acc ++ [b]) := by
          simp [softStep, heq, lt_irrefl]
        rw [hstep]
        obtain ⟨h1, h2, h3, h4⟩ := ih m (acc ++ [b]) (by
          intro a ha
          rcases List.mem_append.mp ha with ha' | ha'
          · exact hacc a ha'
          · have : a = b := by simpa using ha'
            subst this
            exact heq)
        refine ⟨h1, ?_, ?_, ?_⟩
        · intro a ha
          rcases List.mem_cons.mp ha with rfl | ha'
          · exact heq ▸ h1
          · exact h2 a ha'
        · rcases h3 with h3 | ⟨a, ha, hfa⟩
          · exact Or.inl h3
          · exact Or.inr ⟨a, List.mem_cons_of_mem _ ha, hfa⟩
        · intro x
          rw [h4 x]
          constructor
          · rintro (⟨hm, hx⟩ | ⟨hx, hfx⟩)
            · rcases List.mem_append.mp hx with hx' | hx'
              · exact Or.inl ⟨hm, hx'⟩
              · have hxb : x = b := by simpa using hx'
                subst hxb
                exact Or.inr ⟨List.mem_cons_self _ _, heq.trans hm.symm⟩
            · exact Or.inr ⟨List.mem_cons_of_mem _ hx, hfx⟩
          · rintro (⟨hm, hx⟩ | ⟨hx, hfx⟩)
            · exact Or.inl ⟨hm, List.mem_append.mpr (Or.inl hx)⟩
            · rcases List.mem_cons.mp hx with rfl | hx'
              · exact Or.inl ⟨(heq ▸ hfx).symm,
                  List.mem_append.mpr (Or.inr (by simp))⟩
              · exact Or.inr ⟨hx', hfx⟩
      · -- larger: no change
        have hstep : softStep f (m, acc) b = (m, acc) := by
          have hnlt : ¬ f b < m := not_lt_of_gt hgt
          have hne : ¬ f b = m := ne_of_gt hgt
          simp [softStep, hnlt, hne]
        rw [hstep]
        obtain ⟨h1, h2, h3, h4⟩ := ih m acc hacc
        refine ⟨h1, ?_, ?_, ?_⟩
        · intro a ha
          rcases List.mem_cons.mp ha with rfl | ha'
          · exact le_trans h1 (le_of_lt hgt)
          · exact h2 a ha'
        · rcases h3 with h3 | ⟨a, ha, hfa⟩
          · exact Or.inl h3
          · exact Or.inr ⟨a, List.mem_cons_of_mem _ ha, hfa⟩
        · intro x
          rw [h4 x]
          constructor
          · rintro (⟨hm, hx⟩ | ⟨hx, hfx⟩)
            · exact Or.inl ⟨hm, hx⟩
            · exact Or.inr ⟨List.mem_cons_of_mem _ hx, hfx⟩
          · rintro (⟨hm, hx⟩ | ⟨hx, hfx⟩)
            · exact Or.inl ⟨hm, hx⟩
            · rcases List.mem_cons.mp hx with rfl | hx'
              · exfalso
                omega
              · exact Or.inr ⟨hx', hfx⟩

theorem filterHardDrainedNodes_spec {α : Type} (prefixes : PrefixEntries α)
    (st : AreaLinkStates) :
    filterHardDrainedNodes prefixes st =
      if ∀ pe ∈ prefixes, st.isNodeOverloaded pe.1.2 pe.1.1 = true
      then prefixes
      else prefixes.filter (fun pe => ! st.isNodeOverloaded pe.1.2 pe.1.1) := by
  unfold filterHardDrainedNodes
  by_cases h : ∀ pe ∈ prefixes, st.isNodeOverloaded pe.1.2 pe.1.1 = true
  · rw [if_pos h]
    have hempty :
        (prefixes.filter
          (fun pe => ! st.isNodeOverloaded pe.1.2 pe.1.1)) = [] := by
      rw [List.filter_eq_nil_iff]
      intro pe hpe
      simp [h pe hpe]
    simp [hempty]
  · rw [if_neg h]
    push_neg at h
    obtain ⟨pe, hpe, hno⟩ := h
    have hmem : pe ∈ prefixes.filter
        (fun qe => ! st.isNodeOverloaded qe.1.2 qe.1.1) := by
      rw [List.mem_filter]
      exact ⟨hpe, by simp [hno]⟩
    have hne : (prefixes.filter
        (fun qe => ! st.isNodeOverloaded qe.1.2 qe.1.1)).isEmpty = false := by
      rcases hflt : prefixes.filter
          (fun qe => ! st.isNodeOverloaded qe.1.2 qe.1.1) with _ | _
      · rw [hflt] at hmem
        cases hmem
      · rw [hflt]
        rfl
    simp [hne]

/-- C7: `SpfSolver::filterDrainedNodes`, applied to a non-empty candidate map,
first removes every hard-drained (overloaded) candidate unless all candidates
are hard-drained (in which case all are kept), and then keeps exactly those
remaining candidates whose soft-drain value (`nodeMetricIncrementVal`) is the
minimum among them. The bound hypothesis is the `i32` value range of
`nodeMetricIncrementVal` in the thrift schema. -/
theorem filterDrainedNodes_spec {α : Type} (prefixes : PrefixEntries α)
    (st : AreaLinkStates) (hne : prefixes ≠ [])
    (hbound : ∀ pe ∈ prefixes,
      st.getNodeMetricIncrement pe.1.2 pe.1.1 ≤ 2147483647) :
    ∀ pe, pe ∈ filterDrainedNodes prefixes st ↔
      (pe ∈ (if ∀ qe ∈ prefixes, st.isNodeOverloaded qe.1.2 qe.1.1 = true
             then prefixes
             else prefixes.filter
               (fun qe => ! st.isNodeOverloaded qe.1.2 qe.1.1)) ∧
       ∀ qe ∈ (if ∀ qe ∈ prefixes, st.isNodeOverloaded qe.1.2 qe.1.1 = true
               then prefixes
               else prefixes.filter
                 (fun qe => ! st.isNodeOverloaded qe.1.2 qe.1.1)),
         st.getNodeMetricIncrement pe.1.2 pe.1.1 ≤
           st.getNodeMetricIncrement qe.1.2 qe.1.1) := by
  intro pe
  rw [show (if ∀ qe ∈ prefixes, st.isNodeOverloaded qe.1.2 qe.1.1 = true
      then prefixes
      else prefixes.filter (fun qe => ! st.isNodeOverloaded qe.1.2 qe.1.1)) =
      filterHardDrainedNodes prefixes st from
    (filterHardDrainedNodes_spec prefixes st).symm]
  have hsub : ∀ qe ∈ filterHardDrainedNodes prefixes st, qe ∈ prefixes := by
    intro qe hqe
    unfold filterHardDrainedNodes at hqe
    by_cases hemp : (prefixes.filter
        (fun qe => ! st.isNodeOverloaded qe.1.2 qe.1.1)).isEmpty
    · rw [if_pos hemp] at hqe
      exact hqe
    · rw [if_neg hemp] at hqe
      exact List.mem_of_mem_filter hqe
  obtain ⟨h1, h2, h3, h4⟩ := softFold_spec
    (fun qe => st.getNodeMetricIncrement qe.1.2 qe.1.1)
    (filterHardDrainedNodes prefixes st) 2147483647 [] (by simp)
  have hres : pe ∈ filterDrainedNodes prefixes st ↔
      (pe ∈ filterHardDrainedNodes prefixes st ∧
        st.getNodeMetricIncrement pe.1.2 pe.1.1 =
          ((filterHardDrainedNodes prefixes st).foldl
            (softStep (fun qe => st.getNodeMetricIncrement qe.1.2 qe.1.1))
            (2147483647, [])).1) := by
    rw [show filterDrainedNodes prefixes st =
        ((filterHardDrainedNodes prefixes st).foldl
          (softStep (fun qe => st.getNodeMetricIncrement qe.1.2 qe.1.1))
          (2147483647, [])).2 from rfl]
    rw [h4 pe]
    simp
  rw [hres]
  constructor
  · rintro ⟨hmem, hval⟩
    refine ⟨hmem, ?_⟩
    intro qe hqe
    rw [hval]
    exact h2 qe hqe
  · rintro ⟨hmem, hminimal⟩
    refine ⟨hmem, ?_⟩
    rcases h3 with h3 | ⟨a, ha, hfa⟩
    · have hle := hbound pe (hsub pe hmem)
      have hge := h2 pe hmem
      omega
    · have hle := hminimal a ha
      have hge := h2 pe hmem
      omega

/-- Witness for `filterDrainedNodes_spec`: node A is hard-drained, nodes B and
C survive, and only B has the minimum soft-drain value 5. -/
theorem filterDrainedNodes_spec_witness :
    ((("B", "a"), 2) : (String × String) × ℕ) ∈ filterDrainedNodes
      [((("A", "a"), 1) : (String × String) × ℕ), (("B", "a"), 2),
        (("C", "a"), 3)]
      ⟨fun _ n => decide (n = "A"),
        fun _ n => if n = "B" then 5 else 7⟩ := by
  exact (filterDrainedNodes_spec
    [((("A", "a"), 1) : (String × String) × ℕ), (("B", "a"), 2),
      (("C", "a"), 3)]
    ⟨fun _ n => decide (n = "A"), fun _ n => if n = "B" then 5 else 7⟩
    (by decide) (by decide) (("B", "a"), 2)).mpr (by decide)

/-! ## Node-segment MPLS label selection (openr/decision/SpfSolver.cpp,
SpfSolver::buildRouteDb) -/

/-- Validity check for an MPLS label. Modelled from the spec: `isMplsLabelValid`
(MplsUtil.h) is not part of this snapshot; a label is valid when it fits the
20-bit MPLS label field and the route is built only for a "valid nonzero
nodeLabel". -/
def isMplsLabelValid (label : Int) : Bool :=
  decide (0 < label) && decide (label < 1048576)

/-- One iteration of the node-segment label loop of `SpfSolver::buildRouteDb`,
processing one adjacency database reduced to (`thisNodeName`, `nodeLabel`).
`labelToNode` maps a label to the node whose route is currently installed for
it (the `RibMplsEntry` toward that node is determined by the name and elided);
`reachable n` stands for `getNextHopsWithMetric` returning a non-empty next-hop
set toward `n`. A label of 0 and invalid labels are skipped; on a duplicate
label the current node is skipped when the stored owner has the smaller name
(`iter->second.first < nodeName` → `continue`), otherwise the stored entry is
erased and replaced (`labelToNode.erase` + `emplace`). -/
def buildLabelStep (myNodeName : String) (reachable : String → Bool)
    (labelToNode : List (Int × String)) (adjDb : String × Int) :
    List (Int × String) :=
  let nodeName := adjDb.1
  let topLabel := adjDb.2
  if topLabel = 0 then labelToNode
  else if ! isMplsLabelValid topLabel then labelToNode
  else if (match alookup labelToNode topLabel with
           | some owner => decide (owner < nodeName)
           | none => false)
  then labelToNode
  else if nodeName = myNodeName then
    ainsert (aerase labelToNode topLabel) topLabel nodeName
  else if ! reachable nodeName then labelToNode
  else ainsert (aerase labelToNode topLabel) topLabel nodeName

/-- The node-segment label loop of `SpfSolver::buildRouteDb` over a list of
adjacency databases. -/
def buildLabelToNode (myNodeName : String) (reachable : String → Bool)
    (adjDbs : List (String × Int)) : List (Int × String) :=
  adjDbs.foldl (buildLabelStep myNodeName reachable) []

/-- C2: evaluation of the node-segment label selection at two reachable nodes
"A" and "B" that both advertise the valid nonzero label 100. In either
processing order the surviving route is toward "A", the smaller node name,
while the claim (and the code comment "we respect the node label of bigger
node-ID") requires the route toward "B". -/
theorem buildLabelToNode_keeps_smaller_name :
    buildLabelToNode "me" (fun _ => true) [("A", 100), ("B", 100)] =
      [(100, "A")] ∧
    buildLabelToNode "me" (fun _ => true) [("B", 100), ("A", 100)] =
      [(100, "A")] := by
  have hAB : decide ("A" < "B") = true := by
    simp only [decide_eq_true_eq]
    rw [String.lt_iff_toList_lt]
    decide
  have hBA : decide ("B" < "A") = false := by
    simp only [decide_eq_false_iff_not]
    rw [String.lt_iff_toList_lt]
    decide
  constructor <;>
    · simp [buildLabelToNode, buildLabelStep, isMplsLabelValid, alookup, aerase,
        ainsert, hAB, hBA]
      decide

/-! ## KvStore peer finite state machine (openr/kvstore/KvStore.h) -/

/-- KvStore peer FSM states (thrift enum `KvStorePeerState`). -/
inductive KvStorePeerState
  | IDLE
  | SYNCING
  | INITIALIZED
deriving DecidableEq, Fintype

/-- KvStore peer FSM events (enum `KvStorePeerEvent` of KvStore.h). -/
inductive KvStorePeerEvent
  | PEER_ADD
  | PEER_DEL
  | SYNC_RESP_RCVD
  | THRIFT_API_ERROR
  | INCONSISTENCY_DETECTED
deriving DecidableEq, Fintype

/-- Modelled from the spec: `KvStoreDb::getNextState` is only declared in
KvStore.h (its implementation file KvStore-inl.h is not part of this
snapshot). The transition table is the one of spec §4.2: PEER_ADD creates a
peer in IDLE; SYNCING reaches INITIALIZED exactly on SYNC_RESP_RCVD;
THRIFT_API_ERROR sends SYNCING or INITIALIZED back to IDLE;
INCONSISTENCY_DETECTED sends INITIALIZED back to IDLE; PEER_DEL removes the
peer; a combination the spec does not list defines no transition (`none`). -/
def getNextState :
    Option KvStorePeerState → KvStorePeerEvent → Option KvStorePeerState
  | none, .PEER_ADD => some .IDLE
  | some _, .PEER_DEL => none
  | some .SYNCING, .SYNC_RESP_RCVD => some .INITIALIZED
  | some .SYNCING, .THRIFT_API_ERROR => some .IDLE
  | some .INITIALIZED, .INCONSISTENCY_DETECTED => some .IDLE
  | some .INITIALIZED, .THRIFT_API_ERROR => some .IDLE
  | _, _ => none

/-- C9: in the KvStore peer state machine a peer reaches INITIALIZED only from
SYNCING upon a SYNC_RESP_RCVD event; in particular no transition leads
directly from IDLE to INITIALIZED. -/
theorem getNextState_initialized_only_from_syncing :
    ∀ (s : Option KvStorePeerState) (e : KvStorePeerEvent),
      getNextState s e = some KvStorePeerState.INITIALIZED →
        s = some KvStorePeerState.SYNCING ∧
          e = KvStorePeerEvent.SYNC_RESP_RCVD := by
  decide

/-- Witness for `getNextState_initialized_only_from_syncing` at the concrete
transition (SYNCING, SYNC_RESP_RCVD), which does produce INITIALIZED. -/
theorem getNextState_initialized_only_from_syncing_witness :
    some KvStorePeerState.SYNCING = some KvStorePeerState.SYNCING ∧
      KvStorePeerEvent.SYNC_RESP_RCVD = KvStorePeerEvent.SYNC_RESP_RCVD :=
  getNextState_initialized_only_from_syncing
    (some KvStorePeerState.SYNCING) KvStorePeerEvent.SYNC_RESP_RCVD rfl

/-! ## KvStore merge semantics (spec §4.1; `KvStoreDb::mergePublication` is
only declared in openr/kvstore/KvStore.h) -/

/-- KvStore value (thrift struct `Value` of openr/if/KvStore.thrift): version,
originator id, optional opaque payload, ttl and ttl version. The `hash` field
is omitted: it is a pure function of the first three fields and does not enter
the merge order. -/
structure Value where
  version : Int
  originatorId : String
  value : Option String
  ttl : Int
  ttlVersion : Int
deriving DecidableEq

/-- The merge-order tuple of a value (spec §3: values are totally ordered by
the lexicographic tuple `(version, originatorId, value)`). -/
def tupleOf (v : Value) : Int × String × Option String :=
  (v.version, v.originatorId, v.value)

/-- Strict comparison of optional payloads: as for C++ `std::optional`, an
absent payload is smaller than any present one; present payloads compare as
strings. -/
def optStrLtB : Option String → Option String → Bool
  | none, some _ => true
  | some a, some b => decide (a < b)
  | _, _ => false

/-- Strict lexicographic order on merge tuples, higher wins each component. -/
def tltB (a b : Int × String × Option String) : Bool :=
  decide (a.1 < b.1) ||
    (decide (a.1 = b.1) &&
      (decide (a.2.1 < b.2.1) ||
        (decide (a.2.1 = b.2.1) && optStrLtB a.2.2 b.2.2)))

/-- Strict merge order on values. -/
def valueLtB (a b : Value) : Bool := tltB (tupleOf a) (tupleOf b)

theorem optStrLtB_trans : ∀ {x y z : Option String},
    optStrLtB x y = true → optStrLtB y z = true → optStrLtB x z = true
  | none, some _, some _, _, _ => rfl
  | some a, some b, some c, h1, h2 => by
      simp only [optStrLtB, decide_eq_true_eq] at h1 h2 ⊢
      exact lt_trans h1 h2
  | none, none, _, h1, _ => by simp [optStrLtB] at h1
  | some _, none, _, h1, _ => by simp [optStrLtB] at h1
  | none, some _, none, _, h2 => by simp [optStrLtB] at h2
  | some _, some _, none, _, h2 => by simp [optStrLtB] at h2

theorem optStrLtB_trichotomy : ∀ (x y : Option String),
    optStrLtB x y = true ∨ x = y ∨ optStrLtB y x = true
  | none, none => Or.inr (Or.inl rfl)
  | none, some _ => Or.inl rfl
  | some _, none => Or.inr (Or.inr rfl)
  | some a, some b => by
      rcases lt_trichotomy a b with h | h | h
      · exact Or.inl (by simp [optStrLtB, h])
      · exact Or.inr (Or.inl (by rw [h]))
      · exact Or.inr (Or.inr (by simp [optStrLtB, h]))

theorem tltB_trans {a b c : Int × String × Option String}
    (h1 : tltB a b = true) (h2 : tltB b c = true) : tltB a c = true := by
  obtain ⟨a1, a2, a3⟩ := a
  obtain ⟨b1, b2, b3⟩ := b
  obtain ⟨c1, c2, c3⟩ := c
  simp only [tltB, Bool.or_eq_true, Bool.and_eq_true, decide_eq_true_eq]
    at h1 h2 ⊢
  rcases h1 with h1 | ⟨h1e, h1s⟩
  · rcases h2 with h2 | ⟨h2e, h2s⟩ <;> exact Or.inl (by omega)
  · rcases h2 with h2 | ⟨h2e, h2s⟩
    · exact Or.inl (by omega)
    · refine Or.inr ⟨by omega, ?_⟩
      rcases h1s with h1s | ⟨h1e2, h1o⟩
      · rcases h2s with h2s | ⟨h2e2, h2o⟩
        · exact Or.inl (lt_trans h1s h2s)
        · subst h2e2
          exact Or.inl h1s
      · subst h1e2
        rcases h2s with h2s | ⟨h2e2, h2o⟩
        · exact Or.inl h2s
        · subst h2e2
          exact Or.inr ⟨rfl, optStrLtB_trans h1o h2o⟩

theorem tltB_trichotomy (a b : Int × String × Option String) :
    tltB a b = true ∨ a = b ∨ tltB b a = true := by
  obtain ⟨a1, a2, a3⟩ := a
  obtain ⟨b1, b2, b3⟩ := b
  simp only [tltB, Bool.or_eq_true, Bool.and_eq_true, decide_eq_true_eq,
    Prod.mk.injEq]
  rcases lt_trichotomy a1 b1 with h1 | h1 | h1
  · exact Or.inl (Or.inl h1)
  · subst h1
    rcases lt_trichotomy a2 b2 with h2 | h2 | h2
    · exact Or.inl (Or.inr ⟨rfl, Or.inl h2⟩)
    · subst h2
      rcases optStrLtB_trichotomy a3 b3 with h3 | h3 | h3
      · exact Or.inl (Or.inr ⟨rfl, Or.inr ⟨rfl, h3⟩⟩)
      · exact Or.inr (Or.inl ⟨rfl, rfl, h3⟩)
      · exact Or.inr (Or.inr (Or.inr ⟨rfl, Or.inr ⟨rfl, h3⟩⟩))
    · exact Or.inr (Or.inr (Or.inr ⟨rfl, Or.inl h2⟩))
  · exact Or.inr (Or.inr (Or.inl h1))

theorem tltB_lt_of_lt_of_le {a b c : Int × String × Option String}
    (h1 : tltB a b = true) (h2 : tltB b c = true ∨ b = c) : tltB a c = true := by
  rcases h2 with h2 | h2
  · exact tltB_trans h1 h2
  · subst h2
    exact h1

/-- Modelled from the spec: the per-key merge step of §4.1 (`mergeKeyValues`
of KvStoreUtil.cpp is not part of this snapshot and `KvStoreDb::mergePublication`
is only declared in KvStore.h). An incoming value whose ttl is neither
positive nor the infinity sentinel (-1) is rejected (INVALID_TTL). Otherwise
an incoming value strictly greater in the merge order replaces the local one;
an equal tuple with strictly higher ttlVersion refreshes only the ttl fields
(else NO_NEED_TO_UPDATE); a smaller one is rejected (OLD_VERSION). A key with
no local value accepts the incoming value. -/
def mergeOne (localV : Option Value) (inV : Value) : Option Value :=
  if ¬ (0 < inV.ttl ∨ inV.ttl = -1) then localV
  else
    match localV with
    | none => some inV
    | some l =>
        if valueLtB l inV then some inV
        else if tupleOf inV = tupleOf l then
          (if l.ttlVersion < inV.ttlVersion then
            some { l with ttl := inV.ttl, ttlVersion := inV.ttlVersion }
          else some l)
        else some l

/-- Merging a sequence of incoming values for one key into the local store
entry, starting from an absent entry. -/
def mergeFold (vs : List Value) : Option Value := vs.foldl mergeOne none

theorem tupleOf_refresh (l : Value) (t tv : Int) :
    tupleOf { l with ttl := t, ttlVersion := tv } = tupleOf l := rfl

theorem mergeFold_inv (vs : List Value)
    (h : ∀ v ∈ vs, 0 < v.ttl ∨ v.ttl = -1) :
    ∀ r : Value, ∃ q, vs.foldl mergeOne (some r) = some q ∧
      (tltB (tupleOf r) (tupleOf q) = true ∨ tupleOf r = tupleOf q) ∧
      (∀ w ∈ vs, tltB (tupleOf w) (tupleOf q) = true ∨ tupleOf w = tupleOf q) ∧
      (tupleOf q = tupleOf r ∨ ∃ w ∈ vs, tupleOf w = tupleOf q) := by
  induction vs with
  | nil =>
      intro r
      exact ⟨r, rfl, Or.inr rfl, by simp, Or.inl rfl⟩
  | cons v t ih =>
      intro r
      have hv := h v (List.mem_cons_self _ _)
      have ht : ∀ w ∈ t, 0 < w.ttl ∨ w.ttl = -1 :=
        fun w hw => h w (List.mem_cons_of_mem _ hw)
      simp only [List.foldl_cons]
      by_cases hlt : valueLtB r v = true
      · -- strictly greater incoming value replaces the local one
        have hstep : mergeOne (some r) v = some v := by
          simp [mergeOne, hv, hlt]
        rw [hstep]
        obtain ⟨q, hq, hle, hall, horig⟩ := ih ht v
        refine ⟨q, hq, Or.inl (tltB_lt_of_lt_of_le hlt hle), ?_, ?_⟩
        · intro w hw
          rcases List.mem_cons.mp hw with rfl | hw'
          · exact hle
          · exact hall w hw'
        · rcases horig with horig | ⟨w, hw, hweq⟩
          · exact Or.inr ⟨v, List.mem_cons_self _ _, horig.symm⟩
          · exact Or.inr ⟨w, List.mem_cons_of_mem _ hw, hweq⟩
      · by_cases heq : tupleOf v = tupleOf r
        · -- content-equal: at most a ttl refresh, the tuple is unchanged
          have hstep : ∃ l', mergeOne (some r) v = some l' ∧
              tupleOf l' = tupleOf r := by
            by_cases htv : r.ttlVersion < v.ttlVersion
            · exact ⟨{ r with ttl := v.ttl, ttlVersion := v.ttlVersion },
                by simp [mergeOne, hv, hlt, heq, htv], rfl⟩
            · exact ⟨r, by simp [mergeOne, hv, hlt, heq, htv], rfl⟩
          obtain ⟨l', hstep, hl'⟩ := hstep
          rw [hstep]
          obtain ⟨q, hq, hle, hall, horig⟩ := ih ht l'
          rw [hl'] at hle horig
          refine ⟨q, hq, hle, ?_, ?_⟩
          · intro w hw
            rcases List.mem_cons.mp hw with rfl | hw'
            · rw [heq]
              exact hle
            · exact hall w hw'
          · rcases horig with horig | ⟨w, hw, hweq⟩
            · exact Or.inl horig
            · exact Or.inr ⟨w, List.mem_cons_of_mem _ hw, hweq⟩
        · -- strictly smaller incoming value is rejected (OLD_VERSION)
          have hvr : tltB (tupleOf v) (tupleOf r) = true := by
            rcases tltB_trichotomy (tupleOf v) (tupleOf r) with h3 | h3 | h3
            · exact h3
            · exact absurd h3 heq
            · exact absurd h3 (by simpa [valueLtB] using hlt)
          have hstep : mergeOne (some r) v = some r := by
            simp [mergeOne, hv, hlt, heq]
          rw [hstep]
          obtain ⟨q, hq, hle, hall, horig⟩ := ih ht r
          refine ⟨q, hq, hle, ?_, ?_⟩
          · intro w hw
            rcases List.mem_cons.mp hw with rfl | hw'
            · exact Or.inl (tltB_lt_of_lt_of_le hvr hle)
            · exact hall w hw'
          · rcases horig with horig | ⟨w, hw, hweq⟩
            · exact Or.inl horig
            · exact Or.inr ⟨w, List.mem_cons_of_mem _ hw, hweq⟩

/-- C1: merging a sequence of valid (ttl-positive or infinite) values for one
key yields a local value whose merge tuple `(version, originatorId, value)` is
the maximum of all merged tuples under the lexicographic higher-wins order;
in particular an incoming value whose tuple is strictly greater than the local
one replaces the local value. -/
theorem kvstore_merge_is_max (vs : List Value)
    (hvalid : ∀ v ∈ vs, 0 < v.ttl ∨ v.ttl = -1) (hne : vs ≠ []) :
    (∃ q, mergeFold vs = some q ∧
      (∀ w ∈ vs, tltB (tupleOf w) (tupleOf q) = true ∨
        tupleOf w = tupleOf q) ∧
      (∃ w ∈ vs, tupleOf w = tupleOf q)) ∧
    (∀ (l inV : Value), (0 < inV.ttl ∨ inV.ttl = -1) →
      valueLtB l inV = true → mergeOne (some l) inV = some inV) := by
  constructor
  · rcases vs with _ | ⟨v, t⟩
    · exact absurd rfl hne
    · have hv := hvalid v (List.mem_cons_self _ _)
      have ht : ∀ w ∈ t, 0 < w.ttl ∨ w.ttl = -1 :=
        fun w hw => hvalid w (List.mem_cons_of_mem _ hw)
      have hfirst : mergeOne none v = some v := by
        simp [mergeOne, hv]
      obtain ⟨q, hq, _, hall, horig⟩ := mergeFold_inv t ht v
      have hunfold : mergeFold (v :: t) = t.foldl mergeOne (mergeOne none v) :=
        rfl
      refine ⟨q, ?_, ?_, ?_⟩
      · rw [hunfold, hfirst]
        exact hq
      · intro w hw
        rcases List.mem_cons.mp hw with rfl | hw'
        · rcases mergeFold_inv t ht w with ⟨q', hq', hle', _, _⟩
          rw [hq'] at hq
          cases hq
          exact hle'
        · exact hall w hw'
      · rcases horig with horig | ⟨w, hw, hweq⟩
        · exact ⟨v, List.mem_cons_self _ _, horig.symm⟩
        · exact ⟨w, List.mem_cons_of_mem _ hw, hweq⟩
  · intro l inV hival hlt
    unfold mergeOne
    rw [if_neg (not_not_intro hival)]
    simp [hlt]

/-- Witness for `kvstore_merge_is_max` at a concrete two-value history with
valid ttls. -/
theorem kvstore_merge_is_max_witness :
    (∃ q, mergeFold [⟨1, "A", some "x", 100, 0⟩, ⟨2, "B", some "y", 100, 0⟩] =
        some q ∧
      (∀ w ∈ [(⟨1, "A", some "x", 100, 0⟩ : Value),
          ⟨2, "B", some "y", 100, 0⟩],
        tltB (tupleOf w) (tupleOf q) = true ∨ tupleOf w = tupleOf q) ∧
      (∃ w ∈ [(⟨1, "A", some "x", 100, 0⟩ : Value),
          ⟨2, "B", some "y", 100, 0⟩], tupleOf w = tupleOf q)) ∧
    (∀ (l inV : Value), (0 < inV.ttl ∨ inV.ttl = -1) →
      valueLtB l inV = true → mergeOne (some l) inV = some inV) :=
  kvstore_merge_is_max
    [⟨1, "A", some "x", 100, 0⟩, ⟨2, "B", some "y", 100, 0⟩]
    (by decide) (by decide)

/-! ## LinkState and SPF (openr/decision/LinkState.cpp) -/

/-- A materialized bidirectional link (class `Link`). Per-direction metric,
overload and weight are kept; interface names identify the link's sides.
Adjacency labels and next-hop addresses are not consumed by the SPF, KSP and
UCMP claims and are elided. The hold mechanism is dormant
(`updateAdjacencyDatabase` passes zero hold ttls), so `holdUpTtl` is always 0
and omitted. -/
structure Link where
  n1 : String
  if1 : String
  n2 : String
  if2 : String
  metric1 : Nat
  metric2 : Nat
  overload1 : Bool
  overload2 : Bool
  weight1 : Int
  weight2 : Int
deriving DecidableEq

/-- Embedding of `Link::getOtherNodeName` (total on the link's endpoints). -/
def Link.getOtherNodeName (l : Link) (n : String) : String :=
  if l.n1 = n then l.n2 else l.n1

/-- Embedding of `Link::getMetricFromNode`. -/
def Link.getMetricFromNode (l : Link) (n : String) : Nat :=
  if l.n1 = n then l.metric1 else l.metric2

/-- Embedding of `Link::getWeightFromNode`. -/
def Link.getWeightFromNode (l : Link) (n : String) : Int :=
  if l.n1 = n then l.weight1 else l.weight2

/-- Embedding of `Link::getIfaceFromNode`. -/
def Link.getIfaceFromNode (l : Link) (n : String) : String :=
  if l.n1 = n then l.if1 else l.if2

/-- Embedding of `Link::isUp` with the dormant hold mechanism at zero:
neither endpoint is overloaded. -/
def Link.isUp (l : Link) : Bool := !l.overload1 && !l.overload2

/-- The per-area link-state graph restricted to what `runSpf`, `getKthPaths`
and `resolveUcmpWeights` consume: the materialized links
(`linkMap_`/`allLinks_`) and the node overload map (`isNodeOverloaded`). -/
structure LinkState where
  links : List Link
  overloaded : String → Bool

/-- Embedding of `LinkState::linksFromNode`: the links incident to a node. -/
def linksFromNode (ls : LinkState) (n : String) : List Link :=
  ls.links.filter (fun l => l.n1 = n || l.n2 = n)

/-- A recorded predecessor edge (entry of `NodeSpfResult::pathLinks`). -/
structure PathLink where
  link : Link
  prevNode : String
deriving DecidableEq

/-- Per-node SPF result (`NodeSpfResult`, declared in LinkState.h): best
metric, ECMP next-hop set and recorded predecessor links. -/
structure NodeSpfResult where
  metric : Nat
  nextHops : List String
  pathLinks : List PathLink
deriving DecidableEq

/-- Modelled from the spec: `DijkstraQ` (declared in LinkState.h, which is not
part of this snapshot) is a min-priority queue of nodes keyed by the current
metric; `extractMin` removes a node of minimal metric. The queue is embedded
as an association list and `extractMin` removes the first entry of minimal
metric. -/
def extractMin : List (String × NodeSpfResult) →
    Option ((String × NodeSpfResult) × List (String × NodeSpfResult))
  | [] => none
  | x :: xs =>
      match extractMin xs with
      | none => some (x, [])
      | some (m, rest) =>
          if x.2.metric ≤ m.2.metric then some (x, xs) else some (m, x :: rest)

/-- Insertion into the ECMP next-hop set (`NodeSpfResult::addNextHop`). -/
def insertNextHop (nhs : List String) (n : String) : List String :=
  if n ∈ nhs then nhs else nhs ++ [n]

/-- Union of next-hop sets (`NodeSpfResult::addNextHops`). -/
def addNextHops (nhs : List String) (more : List String) : List String :=
  more.foldl insertNextHop nhs

/-- The relaxation update of one queue node, following the body of the relax
step in `LinkState::runSpf`: an existing strictly lower metric wins; a
strictly better metric resets the node result (`result.reset`); then the new
path link is recorded (`addPath`), next hops merged (`addNextHops`) and a
directly connected node gets the neighbor itself as next hop
(`addNextHop(otherNodeName)`). -/
def updateSpfNode (r : NodeSpfResult) (newMetric : Nat) (link : Link)
    (prevNode : String) (prevNextHops : List String)
    (otherNodeName : String) : NodeSpfResult :=
  if r.metric < newMetric then r
  else
    let r1 : NodeSpfResult := if newMetric < r.metric then ⟨newMetric, [], []⟩ else r
    let r2 : NodeSpfResult := { r1 with pathLinks := r1.pathLinks ++ [⟨link, prevNode⟩] }
    let r3 : NodeSpfResult := { r2 with nextHops := addNextHops r2.nextHops prevNextHops }
    if r3.nextHops.isEmpty then { r3 with nextHops := [otherNodeName] } else r3

/-- Relaxation of one link out of the just-recorded node, following
`LinkState::runSpf`: links that are down, lead to an already recorded node or
are in `linksToIgnore` are skipped; the neighbor is inserted into the queue if
absent and its result updated when the new metric is not worse. -/
def relaxLink (useLinkMetric : Bool) (ignore : List Link)
    (result : List (String × NodeSpfResult)) (recName : String)
    (recMetric : Nat) (recNextHops : List String)
    (q : List (String × NodeSpfResult)) (link : Link) :
    List (String × NodeSpfResult) :=
  let otherNodeName := link.getOtherNodeName recName
  if ¬ link.isUp ∨ (alookup result otherNodeName).isSome ∨ link ∈ ignore then
    q
  else
    let metric := if useLinkMetric then link.getMetricFromNode recName else 1
    let q1 := if (alookup q otherNodeName).isSome then q
      else q ++ [(otherNodeName, ⟨recMetric + metric, [], []⟩)]
    q1.map (fun nr =>
      if nr.1 = otherNodeName then
        (nr.1, updateSpfNode nr.2 (recMetric + metric) link recName
          recNextHops otherNodeName)
      else nr)

/-- Main loop of `LinkState::runSpf`: extract the minimum node, record it, and
relax its adjacencies unless it is an overloaded non-source node. The fuel
argument makes the recursion structural; `runSpf` supplies enough fuel for
every node to be extracted. -/
def spfLoop (ls : LinkState) (source : String) (useLinkMetric : Bool)
    (ignore : List Link) :
    Nat → List (String × NodeSpfResult) → List (String × NodeSpfResult) →
      List (String × NodeSpfResult)
  | 0, _, result => result
  | fuel + 1, q, result =>
      match extractMin q with
      | none => result
      | some ((name, nodeRes), q1) =>
          let result1 := result ++ [(name, nodeRes)]
          if ls.overloaded name ∧ name ≠ source then
            spfLoop ls source useLinkMetric ignore fuel q1 result1
          else
            spfLoop ls source useLinkMetric ignore fuel
              ((linksFromNode ls name).foldl
                (relaxLink useLinkMetric ignore result1 name nodeRes.metric
                  nodeRes.nextHops) q1)
              result1

/-- Embedding of `LinkState::runSpf(thisNodeName, useLinkMetric,
linksToIgnore)`: Dijkstra from the source with metric 0. -/
def runSpf (ls : LinkState) (thisNodeName : String) (useLinkMetric : Bool)
    (linksToIgnore : List Link) : List (String × NodeSpfResult) :=
  spfLoop ls thisNodeName useLinkMetric linksToIgnore
    (2 * ls.links.length + 1) [(thisNodeName, ⟨0, [], []⟩)] []

/-- Embedding of `LinkState::traceOnePath` and its alternatives loop as one
fuel-indexed recursion (`Sum.inl dest` is a call on a destination node,
`Sum.inr pls` the loop over that node's remaining path links): walk
`pathLinks` backward from the destination to `src`, inserting each considered
link into the visited set, which persists across failed alternatives exactly
as the C++ `LinkSet` is mutated in place. The pair returned is (the found
path if any, the updated visited set). The fuel only bounds the recursion
depth; callers supply enough of it. -/
def traceAux (result : List (String × NodeSpfResult)) (src : String) :
    Nat → Sum String (List PathLink) → List Link →
      Option (List Link) × List Link
  | 0, _, visited => (none, visited)
  | fuel + 1, Sum.inl dest, visited =>
      if src = dest then (some [], visited)
      else
        match alookup result dest with
        | none => (none, visited)
        | some nodeRes => traceAux result src fuel (Sum.inr nodeRes.pathLinks)
            visited
  | _ + 1, Sum.inr [], visited => (none, visited)
  | fuel + 1, Sum.inr (pl :: rest), visited =>
      if pl.link ∈ visited then traceAux result src fuel (Sum.inr rest) visited
      else
        match traceAux result src fuel (Sum.inl pl.prevNode)
            (visited ++ [pl.link]) with
        | (some path, vis) => (some (path ++ [pl.link]), vis)
        | (none, vis) => traceAux result src fuel (Sum.inr rest) vis

/-- The entry point of `LinkState::traceOnePath`. -/
def traceOnePath (result : List (String × NodeSpfResult)) (src : String)
    (fuel : Nat) (dest : String) (visited : List Link) :
    Option (List Link) × List Link :=
  traceAux result src fuel (Sum.inl dest) visited

/-- The path enumeration loop of `LinkState::getKthPaths`: repeatedly call
`traceOnePath` with the shared visited set until no further non-empty path is
found. -/
def tracePathsLoop (result : List (String × NodeSpfResult))
    (src dst : String) (linkBound : Nat) :
    Nat → List Link → List (List Link)
  | 0, _ => []
  | fuel + 1, visited =>
      match traceOnePath result src linkBound dst visited with
      | (some path, vis) =>
          if path.isEmpty then []
          else path :: tracePathsLoop result src dst linkBound fuel vis
      | (none, _) => []

/-- Embedding of `LinkState::getKthPaths` as a recursion over the order `k`:
the pair holds the paths found at order `k` and the accumulated
`linksToIgnore` after order `k` (every link used by a path of order at most
`k`). Order `k + 1` re-runs SPF ignoring the accumulated set, exactly as the
source collects the links of all lower-order paths. -/
def kthPathsState (ls : LinkState) (src dst : String) :
    Nat → List (List Link) × List Link
  | 0 => ([], [])
  | k + 1 =>
      let prev := kthPathsState ls src dst k
      let res := runSpf ls src true prev.2
      let paths :=
        if (alookup res dst).isSome then
          tracePathsLoop res src dst ((ls.links.length + 2) * (ls.links.length + 2))
            (ls.links.length + 1) []
        else []
      (paths, prev.2 ++ paths.flatten)

/-- The paths of order `k` (`getKthPaths(src, dst, k)`, `k ≥ 1`). -/
def getKthPaths (ls : LinkState) (src dst : String) (k : Nat) :
    List (List Link) :=
  (kthPathsState ls src dst k).1

theorem alookup_append {K V : Type} [DecidableEq K] (l1 l2 : List (K × V))
    (k : K) :
    alookup (l1 ++ l2) k =
      match alookup l1 k with
      | some v => some v
      | none => alookup l2 k := by
  induction l1 with
  | nil => simp [alookup]
  | cons kv rest ih =>
      obtain ⟨k0, v0⟩ := kv
      by_cases hk : k0 = k
      · simp [alookup, hk]
      · simp [alookup, hk, ih]

theorem mem_akeys {K V : Type} (l : List (K × V)) (k : K) :
    k ∈ akeys l ↔ ∃ v, (k, v) ∈ l := by
  simp only [akeys, List.mem_map]
  constructor
  · rintro ⟨⟨k0, v0⟩, hmem, rfl⟩
    exact ⟨v0, hmem⟩
  · rintro ⟨v, hv⟩
    exact ⟨(k, v), hv, rfl⟩

theorem alookup_eq_none_iff_not_mem_akeys {K V : Type} [DecidableEq K]
    (l : List (K × V)) (k : K) : alookup l k = none ↔ k ∉ akeys l := by
  rw [alookup_eq_none, mem_akeys]
  constructor
  · rintro h ⟨v, hv⟩
    exact h v hv
  · intro h v hv
    exact h ⟨v, hv⟩

theorem alookup_append_left {K V : Type} [DecidableEq K]
    {l1 : List (K × V)} {k : K} {v : V} (l2 : List (K × V))
    (h : alookup l1 k = some v) : alookup (l1 ++ l2) k = some v := by
  rw [alookup_append, h]

theorem extractMin_eq_none {q : List (String × NodeSpfResult)} :
    extractMin q = none ↔ q = [] := by
  cases q with
  | nil => simp [extractMin]
  | cons x xs =>
      simp only [extractMin]
      rcases h : extractMin xs with _ | e
      · simp
      · obtain ⟨m, rest⟩ := e
        by_cases hle : x.2.metric ≤ m.2.metric <;> simp [hle]

theorem extractMin_perm {q : List (String × NodeSpfResult)}
    {e : String × NodeSpfResult} {q1 : List (String × NodeSpfResult)}
    (h : extractMin q = some (e, q1)) : q.Perm (e :: q1) := by
  induction q generalizing e q1 with
  | nil => simp [extractMin] at h
  | cons x xs ih =>
      simp only [extractMin] at h
      rcases hxs : extractMin xs with _ | p
      · rw [hxs] at h
        have hnil : xs = [] := extractMin_eq_none.mp hxs
        subst hnil
        injection h with h1
        injection h1 with h2 h3
        subst h2
        subst h3
        exact List.Perm.refl _
      · obtain ⟨m, rest⟩ := p
        rw [hxs] at h
        have h' : (if x.2.metric ≤ m.2.metric then some (x, xs)
            else some (m, x :: rest)) = some (e, q1) := h
        by_cases hle : x.2.metric ≤ m.2.metric
        · rw [if_pos hle] at h'
          injection h' with h1
          injection h1 with h2 h3
          subst h2
          subst h3
          exact List.Perm.refl _
        · rw [if_neg hle] at h'
          injection h' with h1
          injection h1 with h2 h3
          subst h2
          subst h3
          exact (List.Perm.cons x (ih hxs)).trans (List.Perm.swap m x rest)

/-- The per-entry SPF invariant: every recorded path link points back to a
node that is the source or not overloaded, avoids every ignored link, and
decomposes the entry's metric as the predecessor's metric plus this hop's
cost. -/
def pathLinkOk (src : String) (ov : String → Bool) (u : Bool)
    (ig : List Link) (result : List (String × NodeSpfResult))
    (r : NodeSpfResult) : Prop :=
  ∀ pl ∈ r.pathLinks,
    (pl.prevNode = src ∨ ov pl.prevNode = false) ∧
    pl.link ∉ ig ∧
    ∃ pr, alookup result pl.prevNode = some pr ∧
      r.metric = pr.metric +
        (if u then pl.link.getMetricFromNode pl.prevNode else 1)

/-- The SPF loop invariant relating the recorded results and the queue. -/
def spfInv (src : String) (ov : String → Bool) (u : Bool) (ig : List Link)
    (result q : List (String × NodeSpfResult)) : Prop :=
  (akeys result).Nodup ∧ (akeys q).Nodup ∧
  (∀ k ∈ akeys q, k ∉ akeys result) ∧
  (∀ nr ∈ result, pathLinkOk src ov u ig result nr.2) ∧
  (∀ nr ∈ q, pathLinkOk src ov u ig result nr.2)

theorem pathLinkOk_mono {src : String} {ov : String → Bool} {u : Bool}
    {ig : List Link} {result result' : List (String × NodeSpfResult)}
    {r : NodeSpfResult}
    (hsub : ∀ (k : String) (v : NodeSpfResult),
      alookup result k = some v → alookup result' k = some v)
    (h : pathLinkOk src ov u ig result r) :
    pathLinkOk src ov u ig result' r := by
  intro pl hpl
  obtain ⟨h1, h2, pr, hpr, hm⟩ := h pl hpl
  exact ⟨h1, h2, pr, hsub _ _ hpr, hm⟩

theorem updateSpfNode_metric_pathLinks (r : NodeSpfResult) (nm : Nat)
    (link : Link) (prevNode : String) (nhs : List String) (other : String) :
    (updateSpfNode r nm link prevNode nhs other).metric =
      (if r.metric < nm then r.metric
       else if nm < r.metric then nm else r.metric) ∧
    (updateSpfNode r nm link prevNode nhs other).pathLinks =
      (if r.metric < nm then r.pathLinks
       else if nm < r.metric then [⟨link, prevNode⟩]
       else r.pathLinks ++ [⟨link, prevNode⟩]) := by
  unfold updateSpfNode
  by_cases h1 : r.metric < nm
  · simp [h1]
  · by_cases h2 : nm < r.metric
    · simp only [if_neg h1, if_pos h2]
      constructor
      · by_cases h3 : (addNextHops ([] : List String) nhs).isEmpty <;>
          simp [h3]
      · by_cases h3 : (addNextHops ([] : List String) nhs).isEmpty <;>
          simp [h3]
    · simp only [if_neg h1, if_neg h2]
      constructor
      · by_cases h3 : (addNextHops r.nextHops nhs).isEmpty <;> simp [h3]
      · by_cases h3 : (addNextHops r.nextHops nhs).isEmpty <;> simp [h3]

theorem updateSpfNode_pathLinkOk {src : String} {ov : String → Bool}
    {u : Bool} {ig : List Link} {result1 : List (String × NodeSpfResult)}
    {r : NodeSpfResult} {link : Link} {recName other : String}
    {recNHs : List String} {recRes : NodeSpfResult}
    (hold : pathLinkOk src ov u ig result1 r)
    (hprev : recName = src ∨ ov recName = false)
    (hlink : link ∉ ig)
    (hrec : alookup result1 recName = some recRes) :
    pathLinkOk src ov u ig result1
      (updateSpfNode r
        (recRes.metric + (if u then link.getMetricFromNode recName else 1))
        link recName recNHs other) := by
  set nm := recRes.metric + (if u then link.getMetricFromNode recName else 1)
    with hnm
  obtain ⟨hmet, hpls⟩ :=
    updateSpfNode_metric_pathLinks r nm link recName recNHs other
  intro pl hpl
  rw [hpls] at hpl
  by_cases h1 : r.metric < nm
  · rw [if_pos h1] at hpl
    obtain ⟨ha, hb, pr, hpr, hm⟩ := hold pl hpl
    refine ⟨ha, hb, pr, hpr, ?_⟩
    rw [hmet, if_pos h1]
    exact hm
  · by_cases h2 : nm < r.metric
    · rw [if_neg h1, if_pos h2] at hpl
      have hpleq : pl = ⟨link, recName⟩ := by simpa using hpl
      subst hpleq
      refine ⟨hprev, hlink, recRes, hrec, ?_⟩
      rw [hmet, if_neg h1, if_pos h2]
    · rw [if_neg h1, if_neg h2] at hpl
      have hreq : r.metric = nm := by omega
      rcases List.mem_append.mp hpl with hpl' | hpl'
      · obtain ⟨ha, hb, pr, hpr, hm⟩ := hold pl hpl'
        refine ⟨ha, hb, pr, hpr, ?_⟩
        rw [hmet, if_neg h1, if_neg h2]
        exact hm
      · have hpleq : pl = ⟨link, recName⟩ := by simpa using hpl'
        subst hpleq
        refine ⟨hprev, hlink, recRes, hrec, ?_⟩
        rw [hmet, if_neg h1, if_neg h2, hreq]

theorem akeys_map_keyPreserving
    (f : (String × NodeSpfResult) → (String × NodeSpfResult))
    (hf : ∀ nr, (f nr).1 = nr.1) (l : List (String × NodeSpfResult)) :
    akeys (l.map f) = akeys l := by
  induction l with
  | nil => rfl
  | cons nr rest ih =>
      simp only [List.map_cons, akeys, List.map_map] at ih ⊢
      rw [hf nr, ih]

theorem relaxLink_inv {u : Bool} {ig : List Link}
    {result1 : List (String × NodeSpfResult)} {src : String}
    {ov : String → Bool} {recName : String} {recRes : NodeSpfResult}
    {recNHs : List String} (link : Link)
    (q : List (String × NodeSpfResult))
    (hqnd : (akeys q).Nodup)
    (hdisj : ∀ k ∈ akeys q, k ∉ akeys result1)
    (hqok : ∀ nr ∈ q, pathLinkOk src ov u ig result1 nr.2)
    (hrec : alookup result1 recName = some recRes)
    (hprev : recName = src ∨ ov recName = false) :
    (akeys (relaxLink u ig result1 recName recRes.metric recNHs q
      link)).Nodup ∧
    (∀ k ∈ akeys (relaxLink u ig result1 recName recRes.metric recNHs q
      link), k ∉ akeys result1) ∧
    (∀ nr ∈ relaxLink u ig result1 recName recRes.metric recNHs q link,
      pathLinkOk src ov u ig result1 nr.2) := by
  have hbody : relaxLink u ig result1 recName recRes.metric recNHs q link =
      if ¬ link.isUp = true ∨
          (alookup result1 (link.getOtherNodeName recName)).isSome = true ∨
          link ∈ ig then q
      else
        (if (alookup q (link.getOtherNodeName recName)).isSome = true then q
         else q ++ [(link.getOtherNodeName recName,
           ⟨recRes.metric +
             (if u then link.getMetricFromNode recName else 1), [], []⟩)]).map
          (fun nr => if nr.1 = link.getOtherNodeName recName then
            (nr.1, updateSpfNode nr.2
              (recRes.metric +
                (if u then link.getMetricFromNode recName else 1))
              link recName recNHs (link.getOtherNodeName recName))
            else nr) := rfl
  rw [hbody]
  by_cases hskip : ¬ link.isUp = true ∨
      (alookup result1 (link.getOtherNodeName recName)).isSome = true ∨
      link ∈ ig
  · rw [if_pos hskip]
    exact ⟨hqnd, hdisj, hqok⟩
  · rw [if_neg hskip]
    push_neg at hskip
    obtain ⟨hup, hnotin, hnig⟩ := hskip
    have hnotinres : link.getOtherNodeName recName ∉ akeys result1 := by
      rw [← alookup_eq_none_iff_not_mem_akeys]
      rcases h : alookup result1 (link.getOtherNodeName recName) with _ | v
      · rfl
      · rw [h] at hnotin
        simp at hnotin
    have hkeymap : ∀ nr : String × NodeSpfResult,
        ((fun nr => if nr.1 = link.getOtherNodeName recName then
          (nr.1, updateSpfNode nr.2
            (recRes.metric +
              (if u then link.getMetricFromNode recName else 1))
            link recName recNHs (link.getOtherNodeName recName))
          else nr) nr).1 = nr.1 := by
      intro nr
      by_cases h : nr.1 = link.getOtherNodeName recName <;> simp [h]
    have hq1 : ∀ q1 : List (String × NodeSpfResult),
        ((akeys q1).Nodup ∧ (∀ k ∈ akeys q1, k ∉ akeys result1) ∧
          (∀ nr ∈ q1, pathLinkOk src ov u ig result1 nr.2)) →
        (akeys (q1.map (fun nr =>
          if nr.1 = link.getOtherNodeName recName then
            (nr.1, updateSpfNode nr.2
              (recRes.metric +
                (if u then link.getMetricFromNode recName else 1))
              link recName recNHs (link.getOtherNodeName recName))
          else nr))).Nodup ∧
        (∀ k ∈ akeys (q1.map (fun nr =>
          if nr.1 = link.getOtherNodeName recName then
            (nr.1, updateSpfNode nr.2
              (recRes.metric +
                (if u then link.getMetricFromNode recName else 1))
              link recName recNHs (link.getOtherNodeName recName))
          else nr)), k ∉ akeys result1) ∧
        (∀ nr ∈ q1.map (fun nr =>
          if nr.1 = link.getOtherNodeName recName then
            (nr.1, updateSpfNode nr.2
              (recRes.metric +
                (if u then link.getMetricFromNode recName else 1))
              link recName recNHs (link.getOtherNodeName recName))
          else nr),
          pathLinkOk src ov u ig result1 nr.2) := by
      rintro q1 ⟨hnd1, hdisj1, hok1⟩
      rw [akeys_map_keyPreserving _ hkeymap]
      refine ⟨hnd1, hdisj1, ?_⟩
      intro nr hnr
      obtain ⟨nr0, hnr0, hmap⟩ := List.mem_map.mp hnr
      by_cases heq : nr0.1 = link.getOtherNodeName recName
      · rw [if_pos heq] at hmap
        subst hmap
        exact updateSpfNode_pathLinkOk (hok1 nr0 hnr0) hprev hnig hrec
      · rw [if_neg heq] at hmap
        subst hmap
        exact hok1 nr0 hnr0
    by_cases hinq : (alookup q (link.getOtherNodeName recName)).isSome = true
    · rw [if_pos hinq]
      exact hq1 q ⟨hqnd, hdisj, hqok⟩
    · rw [if_neg hinq]
      refine hq1 (q ++ [(link.getOtherNodeName recName,
        ⟨recRes.metric +
          (if u then link.getMetricFromNode recName else 1), [], []⟩)]) ?_
      have hnotinq : link.getOtherNodeName recName ∉ akeys q := by
        rw [← alookup_eq_none_iff_not_mem_akeys]
        rcases h : alookup q (link.getOtherNodeName recName) with _ | v
        · rfl
        · rw [h] at hinq
          simp at hinq
      have hak : akeys (q ++ [(link.getOtherNodeName recName,
          (⟨recRes.metric +
            (if u then link.getMetricFromNode recName else 1), [], []⟩ :
            NodeSpfResult))]) = akeys q ++ [link.getOtherNodeName recName] := by
        simp [akeys]
      refine ⟨?_, ?_, ?_⟩
      · rw [hak]
        simp [List.nodup_append, hqnd, hnotinq]
      · intro k hk
        rw [hak] at hk
        rcases List.mem_append.mp hk with hk1 | hk1
        · exact hdisj k hk1
        · have hko : k = link.getOtherNodeName recName := by simpa using hk1
          subst hko
          exact hnotinres
      · intro nr hnr
        rcases List.mem_append.mp hnr with hnr1 | hnr1
        · exact hqok nr hnr1
        · have hne : nr = (link.getOtherNodeName recName,
              ⟨recRes.metric +
                (if u then link.getMetricFromNode recName else 1), [], []⟩) :=
            by simpa using hnr1
          subst hne
          intro pl hpl
          simp at hpl

theorem relaxFold_inv {u : Bool} {ig : List Link}
    {result1 : List (String × NodeSpfResult)} {src : String}
    {ov : String → Bool} {recName : String} {recRes : NodeSpfResult}
    {recNHs : List String} (links : List Link) :
    ∀ q : List (String × NodeSpfResult),
      (akeys q).Nodup →
      (∀ k ∈ akeys q, k ∉ akeys result1) →
      (∀ nr ∈ q, pathLinkOk src ov u ig result1 nr.2) →
      alookup result1 recName = some recRes →
      (recName = src ∨ ov recName = false) →
      (akeys (links.foldl (relaxLink u ig result1 recName recRes.metric
        recNHs) q)).Nodup ∧
      (∀ k ∈ akeys (links.foldl (relaxLink u ig result1 recName recRes.metric
        recNHs) q), k ∉ akeys result1) ∧
      (∀ nr ∈ links.foldl (relaxLink u ig result1 recName recRes.metric
        recNHs) q, pathLinkOk src ov u ig result1 nr.2) := by
  induction links with
  | nil => intro q h1 h2 h3 _ _; exact ⟨h1, h2, h3⟩
  | cons link rest ih =>
      intro q h1 h2 h3 hrec hprev
      simp only [List.foldl_cons]
      obtain ⟨g1, g2, g3⟩ := relaxLink_inv link q h1 h2 h3 hrec hprev
      exact ih _ g1 g2 g3 hrec hprev

theorem spfLoop_post (ls : LinkState) (src : String) (u : Bool)
    (ig : List Link) :
    ∀ (fuel : Nat) (q result : List (String × NodeSpfResult)),
      spfInv src ls.overloaded u ig result q →
      ∀ nr ∈ spfLoop ls src u ig fuel q result,
        pathLinkOk src ls.overloaded u ig
          (spfLoop ls src u ig fuel q result) nr.2 := by
  intro fuel
  induction fuel with
  | zero =>
      intro q result hinv
      simp only [spfLoop]
      exact hinv.2.2.2.1
  | succ fuel ih =>
      intro q result hinv
      obtain ⟨hresnd, hqnd, hdisj, hresok, hqok⟩ := hinv
      rcases hext : extractMin q with _ | e
      · have hno : spfLoop ls src u ig (fuel + 1) q result = result := by
          simp only [spfLoop, hext]
        rw [hno]
        exact hresok
      · obtain ⟨⟨name, nodeRes⟩, q1⟩ := e
        have hperm : q.Perm ((name, nodeRes) :: q1) := extractMin_perm hext
        have hkeysperm : (akeys q).Perm (name :: akeys q1) := by
          have := hperm.map Prod.fst
          simpa [akeys] using this
        have hq1nd : (akeys q1).Nodup ∧ name ∉ akeys q1 := by
          have := hkeysperm.nodup hqnd
          exact ⟨(List.nodup_cons.mp this).2, (List.nodup_cons.mp this).1⟩
        have hmemq : (name, nodeRes) ∈ q :=
          hperm.mem_iff.mpr (List.mem_cons_self _ _)
        have hnamenotres : name ∉ akeys result := by
          apply hdisj
          exact (mem_akeys q name).mpr ⟨nodeRes, hmemq⟩
        have hreskeys : akeys (result ++ [(name, nodeRes)]) =
            akeys result ++ [name] := by simp [akeys]
        have hndres1 : (akeys (result ++ [(name, nodeRes)])).Nodup := by
          rw [hreskeys]
          simp [List.nodup_append, hresnd, hnamenotres]
        have hsub : ∀ (k : String) (v : NodeSpfResult),
            alookup result k = some v →
            alookup (result ++ [(name, nodeRes)]) k = some v :=
          fun k v h => alookup_append_left _ h
        have hlookname : alookup (result ++ [(name, nodeRes)]) name =
            some nodeRes := by
          rw [alookup_append]
          rw [show alookup result name = none from
            (alookup_eq_none_iff_not_mem_akeys result name).mpr hnamenotres]
          simp [alookup]
        have hres1ok : ∀ nr ∈ result ++ [(name, nodeRes)],
            pathLinkOk src ls.overloaded u ig (result ++ [(name, nodeRes)])
              nr.2 := by
          intro nr hnr
          rcases List.mem_append.mp hnr with hnr1 | hnr1
          · exact pathLinkOk_mono hsub (hresok nr hnr1)
          · have : nr = (name, nodeRes) := by simpa using hnr1
            subst this
            exact pathLinkOk_mono hsub (hqok _ hmemq)
        have hq1disj : ∀ k ∈ akeys q1,
            k ∉ akeys (result ++ [(name, nodeRes)]) := by
          intro k hk
          rw [hreskeys]
          intro hmem
          rcases List.mem_append.mp hmem with hm | hm
          · exact hdisj k (hkeysperm.mem_iff.mpr
              (List.mem_cons_of_mem _ hk)) hm
          · have : k = name := by simpa using hm
            subst this
            exact hq1nd.2 hk
        have hq1ok : ∀ nr ∈ q1,
            pathLinkOk src ls.overloaded u ig (result ++ [(name, nodeRes)])
              nr.2 := by
          intro nr hnr
          exact pathLinkOk_mono hsub
            (hqok nr (hperm.mem_iff.mpr (List.mem_cons_of_mem _ hnr)))
        by_cases hov : ls.overloaded name ∧ name ≠ src
        · have hstep : spfLoop ls src u ig (fuel + 1) q result =
              spfLoop ls src u ig fuel q1 (result ++ [(name, nodeRes)]) := by
            simp only [spfLoop, hext, if_pos hov]
          rw [hstep]
          exact ih q1 (result ++ [(name, nodeRes)])
            ⟨hndres1, hq1nd.1, hq1disj, hres1ok, hq1ok⟩
        · have hprev : name = src ∨ ls.overloaded name = false := by
            by_cases h1 : name = src
            · exact Or.inl h1
            · rcases Bool.eq_false_or_eq_true (ls.overloaded name) with h2 | h2
              · exact absurd ⟨h2, h1⟩ hov
              · exact Or.inr h2
          have hstep : spfLoop ls src u ig (fuel + 1) q result =
              spfLoop ls src u ig fuel
                ((linksFromNode ls name).foldl
                  (relaxLink u ig (result ++ [(name, nodeRes)]) name
                    nodeRes.metric nodeRes.nextHops) q1)
                (result ++ [(name, nodeRes)]) := by
            simp only [spfLoop, hext, if_neg hov]
          rw [hstep]
          obtain ⟨g1, g2, g3⟩ := relaxFold_inv
            (linksFromNode ls name) q1 hq1nd.1 hq1disj hq1ok hlookname hprev
          exact ih _ (result ++ [(name, nodeRes)])
            ⟨hndres1, g1, g2, hres1ok, g3⟩

theorem runSpf_pathLinkOk (ls : LinkState) (src : String) (u : Bool)
    (ig : List Link) :
    ∀ nr ∈ runSpf ls src u ig,
      pathLinkOk src ls.overloaded u ig (runSpf ls src u ig) nr.2 := by
  apply spfLoop_post
  refine ⟨by simp [akeys], by simp [akeys], ?_, ?_, ?_⟩
  · intro k hk
    simp [akeys]
  · intro nr hnr
    simp at hnr
  · intro nr hnr
    have : nr = (src, ⟨0, [], []⟩) := by simpa using hnr
    subst this
    intro pl hpl
    simp at hpl

/-- C3: in `LinkState::runSpf` the adjacencies of an extracted node are
relaxed only if it is not overloaded or is the source; hence no recorded
path link of any destination has an overloaded non-source node as its
predecessor, i.e. no recorded shortest path transits through an overloaded
non-source node (which may still itself be recorded as a destination). -/
theorem runSpf_no_transit_through_overloaded (ls : LinkState) (src : String)
    (u : Bool) (ig : List Link) (dst : String) (r : NodeSpfResult)
    (pl : PathLink) (hdst : alookup (runSpf ls src u ig) dst = some r)
    (hpl : pl ∈ r.pathLinks) :
    pl.prevNode = src ∨ ls.overloaded pl.prevNode = false :=
  ((runSpf_pathLinkOk ls src u ig (dst, r) (alookup_mem hdst)) pl hpl).1

/-- Witness for `runSpf_no_transit_through_overloaded` on the concrete chain
A - B - C with B overloaded: B is itself recorded as a destination of the SPF
from A, and its recorded path link points back to the source A. -/
theorem runSpf_no_transit_through_overloaded_witness :
    PathLink.prevNode ⟨⟨"A", "a", "B", "b", 1, 1, false, false, 1, 1⟩, "A"⟩ =
        "A" ∨
      (fun n => decide (n = "B"))
        (PathLink.prevNode
          ⟨⟨"A", "a", "B", "b", 1, 1, false, false, 1, 1⟩, "A"⟩) = false :=
  runSpf_no_transit_through_overloaded
    ⟨[⟨"A", "a", "B", "b", 1, 1, false, false, 1, 1⟩,
      ⟨"B", "c", "C", "d", 1, 1, false, false, 1, 1⟩],
      fun n => decide (n = "B")⟩
    "A" true [] "B"
    ⟨1, ["B"], [⟨⟨"A", "a", "B", "b", 1, 1, false, false, 1, 1⟩, "A"⟩]⟩
    ⟨⟨"A", "a", "B", "b", 1, 1, false, false, 1, 1⟩, "A"⟩
    (by decide) (by decide)

/-- C4 counterexample: in hop-count mode (`useLinkMetric = false`) over a
single link of metric 5, the destination's recorded metric is 1, not the
predecessor's metric plus the link metric taken from the predecessor (5), so
the claim as stated fails for a `runSpf` result. -/
theorem runSpf_hopcount_counterexample :
    alookup (runSpf
        ⟨[⟨"A", "a", "B", "b", 5, 5, false, false, 1, 1⟩], fun _ => false⟩
        "A" false []) "B" =
      some ⟨1, ["B"],
        [⟨⟨"A", "a", "B", "b", 5, 5, false, false, 1, 1⟩, "A"⟩]⟩ ∧
    alookup (runSpf
        ⟨[⟨"A", "a", "B", "b", 5, 5, false, false, 1, 1⟩], fun _ => false⟩
        "A" false []) "A" = some ⟨0, [], []⟩ ∧
    (1 : Nat) ≠ 0 + Link.getMetricFromNode
      ⟨"A", "a", "B", "b", 5, 5, false, false, 1, 1⟩ "A" := by
  refine ⟨by decide, by decide, by decide⟩

/-- C4 (amended): for every destination recorded by `LinkState::runSpf` and
every recorded path link, the destination's metric equals the predecessor's
recorded metric plus the hop cost, where the hop cost is the link's metric
taken from the predecessor when `useLinkMetric` is set and 1 in hop-count
mode. -/
theorem runSpf_metric_decomposition (ls : LinkState) (src : String)
    (u : Bool) (ig : List Link) (dst : String) (r : NodeSpfResult)
    (pl : PathLink) (hdst : alookup (runSpf ls src u ig) dst = some r)
    (hpl : pl ∈ r.pathLinks) :
    ∃ pr, alookup (runSpf ls src u ig) pl.prevNode = some pr ∧
      r.metric = pr.metric +
        (if u then pl.link.getMetricFromNode pl.prevNode else 1) :=
  ((runSpf_pathLinkOk ls src u ig (dst, r) (alookup_mem hdst)) pl hpl).2.2

/-- Witness for `runSpf_metric_decomposition` on the single metric-5 link in
hop-count mode. -/
theorem runSpf_metric_decomposition_witness :
    ∃ pr, alookup (runSpf
        ⟨[⟨"A", "a", "B", "b", 5, 5, false, false, 1, 1⟩], fun _ => false⟩
        "A" false [])
      (PathLink.prevNode
        ⟨⟨"A", "a", "B", "b", 5, 5, false, false, 1, 1⟩, "A"⟩) = some pr ∧
      (NodeSpfResult.metric ⟨1, ["B"],
        [⟨⟨"A", "a", "B", "b", 5, 5, false, false, 1, 1⟩, "A"⟩]⟩) =
        pr.metric + (if false then Link.getMetricFromNode
          ⟨"A", "a", "B", "b", 5, 5, false, false, 1, 1⟩
          (PathLink.prevNode
            ⟨⟨"A", "a", "B", "b", 5, 5, false, false, 1, 1⟩, "A"⟩) else 1) :=
  runSpf_metric_decomposition
    ⟨[⟨"A", "a", "B", "b", 5, 5, false, false, 1, 1⟩], fun _ => false⟩
    "A" false [] "B"
    ⟨1, ["B"], [⟨⟨"A", "a", "B", "b", 5, 5, false, false, 1, 1⟩, "A"⟩]⟩
    ⟨⟨"A", "a", "B", "b", 5, 5, false, false, 1, 1⟩, "A"⟩
    (by decide) (by decide)

theorem traceAux_links_in_result (result : List (String × NodeSpfResult))
    (src : String) :
    ∀ (fuel : Nat) (c : Sum String (List PathLink))
      (visited path vis : List Link),
      (∀ pls, c = Sum.inr pls →
        ∀ pl ∈ pls, ∃ nr ∈ result, pl ∈ nr.2.pathLinks) →
      traceAux result src fuel c visited = (some path, vis) →
      ∀ l ∈ path, ∃ nr ∈ result, ∃ pl ∈ nr.2.pathLinks, pl.link = l := by
  intro fuel
  induction fuel with
  | zero =>
      intro c visited path vis _ htr
      simp only [traceAux] at htr
      cases htr
  | succ fuel ih =>
      intro c visited path vis hc htr
      cases c with
      | inl dest =>
          simp only [traceAux] at htr
          by_cases hsd : src = dest
          · rw [if_pos hsd] at htr
            injection htr with htr1 htr2
            injection htr1 with htr1a
            subst htr1a
            intro l hl
            simp at hl
          · rw [if_neg hsd] at htr
            rcases hres : alookup result dest with _ | nodeRes
            · rw [hres] at htr
              cases htr
            · rw [hres] at htr
              exact ih (Sum.inr nodeRes.pathLinks) visited path vis
                (by
                  rintro pls hpls
                  injection hpls with hpls1
                  subst hpls1
                  intro pl hpl
                  exact ⟨(dest, nodeRes), alookup_mem hres, hpl⟩)
                htr
      | inr pls =>
          cases pls with
          | nil =>
              simp only [traceAux] at htr
              cases htr
          | cons pl rest =>
              have hplsmem : ∀ pl0 ∈ pl :: rest,
                  ∃ nr ∈ result, pl0 ∈ nr.2.pathLinks :=
                hc (pl :: rest) rfl
              simp only [traceAux] at htr
              by_cases hvis : pl.link ∈ visited
              · rw [if_pos hvis] at htr
                exact ih (Sum.inr rest) visited path vis
                  (by
                    rintro pls0 hpls0
                    injection hpls0 with hpls1
                    subst hpls1
                    intro pl0 h0
                    exact hplsmem pl0 (List.mem_cons_of_mem _ h0))
                  htr
              · rw [if_neg hvis] at htr
                rcases h0 : traceAux result src fuel (Sum.inl pl.prevNode)
                    (visited ++ [pl.link]) with ⟨op, vis0⟩
                rw [h0] at htr
                cases op with
                | some path0 =>
                    simp only [] at htr
                    injection htr with htr1 htr2
                    injection htr1 with htr1a
                    subst htr1a
                    intro l hl
                    rcases List.mem_append.mp hl with hl1 | hl1
                    · exact ih (Sum.inl pl.prevNode) (visited ++ [pl.link])
                        path0 vis0 (by rintro pls0 ⟨⟩) h0 l hl1
                    · have hll : l = pl.link := by simpa using hl1
                      subst hll
                      obtain ⟨nr, hnr, hplmem⟩ :=
                        hplsmem pl (List.mem_cons_self _ _)
                      exact ⟨nr, hnr, pl, hplmem, rfl⟩
                | none =>
                    simp only [] at htr
                    exact ih (Sum.inr rest) vis0 path vis
                      (by
                        rintro pls0 hpls0
                        injection hpls0 with hpls1
                        subst hpls1
                        intro pl0 hp0
                        exact hplsmem pl0 (List.mem_cons_of_mem _ hp0))
                      htr

theorem traceOnePath_links_in_result (result : List (String × NodeSpfResult))
    (src : String) :
    ∀ (fuel : Nat) (dest : String) (visited path vis : List Link),
      traceOnePath result src fuel dest visited = (some path, vis) →
      ∀ l ∈ path, ∃ nr ∈ result, ∃ pl ∈ nr.2.pathLinks, pl.link = l := by
  intro fuel dest visited path vis htr
  exact traceAux_links_in_result result src fuel (Sum.inl dest) visited path
    vis (by rintro pls ⟨⟩) htr

theorem tracePathsLoop_links_in_result
    (result : List (String × NodeSpfResult)) (src dst : String)
    (linkBound : Nat) :
    ∀ (fuel : Nat) (visited : List Link),
      ∀ p ∈ tracePathsLoop result src dst linkBound fuel visited,
        ∀ l ∈ p, ∃ nr ∈ result, ∃ pl ∈ nr.2.pathLinks, pl.link = l := by
  intro fuel
  induction fuel with
  | zero =>
      intro visited p hp
      simp [tracePathsLoop] at hp
  | succ fuel ih =>
      intro visited p hp
      simp only [tracePathsLoop] at hp
      rcases h0 : traceOnePath result src linkBound dst visited with ⟨op, vis0⟩
      rw [h0] at hp
      cases op with
      | some path0 =>
          simp only [] at hp
          by_cases hemp : path0.isEmpty
          · rw [if_pos hemp] at hp
            cases hp
          · rw [if_neg hemp] at hp
            rcases List.mem_cons.mp hp with rfl | hp1
            · exact traceOnePath_links_in_result result src linkBound dst
                visited p vis0 h0
            · exact ih vis0 p hp1
      | none =>
          simp only [] at hp
          cases hp

theorem getKthPaths_links_avoid_ignore (ls : LinkState) (src dst : String)
    (k : Nat) :
    ∀ p ∈ getKthPaths ls src dst (k + 1), ∀ l ∈ p,
      l ∉ (kthPathsState ls src dst k).2 := by
  intro p hp l hl hlig
  have hp' : p ∈ (kthPathsState ls src dst (k + 1)).1 := hp
  simp only [kthPathsState] at hp'
  by_cases hdst : (alookup (runSpf ls src true (kthPathsState ls src dst k).2)
      dst).isSome
  · rw [if_pos hdst] at hp'
    obtain ⟨nr, hnr, pl, hpl, hpll⟩ := tracePathsLoop_links_in_result
      (runSpf ls src true (kthPathsState ls src dst k).2) src dst
      ((ls.links.length + 2) * (ls.links.length + 2)) (ls.links.length + 1)
      [] p hp' l hl
    have hok := (runSpf_pathLinkOk ls src true
      (kthPathsState ls src dst k).2 nr hnr) pl hpl
    exact hok.2.1 (hpll ▸ hlig)
  · rw [if_neg hdst] at hp'
    cases hp'

theorem kthPathsState_ignore_mono (ls : LinkState) (src dst : String) :
    ∀ i j : Nat, i ≤ j →
      ∀ l ∈ (kthPathsState ls src dst i).2, l ∈ (kthPathsState ls src dst j).2 := by
  intro i j hij
  induction j with
  | zero =>
      intro l hl
      have : i = 0 := Nat.le_zero.mp hij
      subst this
      exact hl
  | succ j ihj =>
      intro l hl
      by_cases hj : i = j + 1
      · subst hj
        exact hl
      · have hij' : i ≤ j := Nat.lt_succ_iff.mp (Nat.lt_of_le_of_ne hij hj)
        have := ihj hij' l hl
        simp only [kthPathsState]
        exact List.mem_append.mpr (Or.inl this)

theorem getKthPaths_subset_ignore (ls : LinkState) (src dst : String)
    (k : Nat) :
    ∀ p ∈ getKthPaths ls src dst k, ∀ l ∈ p,
      l ∈ (kthPathsState ls src dst k).2 := by
  cases k with
  | zero =>
      intro p hp
      simp [getKthPaths, kthPathsState] at hp
  | succ k =>
      intro p hp l hl
      have hp' : p ∈ (kthPathsState ls src dst (k + 1)).1 := hp
      simp only [kthPathsState]
      refine List.mem_append.mpr (Or.inr ?_)
      rw [List.mem_flatten]
      exact ⟨p, by simpa [kthPathsState] using hp', hl⟩

/-- C5: for every order `k > i ≥ 1`, `LinkState::getKthPaths` computes the
order-`k` paths from an SPF run whose ignore set contains every link of every
lower-order path, and consequently no path returned at order `k` shares a
link with any path returned at a lower order. -/
theorem getKthPaths_edge_disjoint (ls : LinkState) (src dst : String)
    (k i : Nat) (hi : 1 ≤ i) (hik : i < k) :
    (∀ q ∈ getKthPaths ls src dst i, ∀ l ∈ q,
      l ∈ (kthPathsState ls src dst (k - 1)).2) ∧
    (∀ p ∈ getKthPaths ls src dst k, ∀ q ∈ getKthPaths ls src dst i,
      ∀ l ∈ p, l ∉ q) := by
  have hik1 : i ≤ k - 1 := by omega
  have hfirst : ∀ q ∈ getKthPaths ls src dst i, ∀ l ∈ q,
      l ∈ (kthPathsState ls src dst (k - 1)).2 := by
    intro q hq l hl
    exact kthPathsState_ignore_mono ls src dst i (k - 1) hik1 l
      (getKthPaths_subset_ignore ls src dst i q hq l hl)
  refine ⟨hfirst, ?_⟩
  intro p hp q hq l hl hlq
  have hk : k = (k - 1) + 1 := by omega
  rw [hk] at hp
  exact getKthPaths_links_avoid_ignore ls src dst (k - 1) p hp l hl
    (hfirst q hq l hlq)

/-- Concrete links of the diamond topology used by the source's own
`getKthPaths` test: 1-2 (10), 1-3 (5), 2-4 (15), a parallel 2-4 (35) and
3-4 (20). -/
def wl12 : Link := ⟨"1", "c", "2", "c", 10, 10, false, false, 1, 1⟩

def wl13 : Link := ⟨"1", "d", "3", "d", 5, 5, false, false, 1, 1⟩

def wl24 : Link := ⟨"2", "a", "4", "a", 15, 15, false, false, 1, 1⟩

def wl24b : Link := ⟨"2", "b", "4", "b", 35, 35, false, false, 1, 1⟩

def wl34 : Link := ⟨"3", "e", "4", "e", 20, 20, false, false, 1, 1⟩

def wlsK : LinkState := ⟨[wl12, wl13, wl24, wl24b, wl34], fun _ => false⟩

/-- Witness for `getKthPaths_edge_disjoint` on the diamond topology: the
order-2 path over the parallel 35-metric link shares no link with the order-1
path over the direct 15-metric link. -/
theorem getKthPaths_edge_disjoint_witness : wl24b ∉ [wl24] :=
  (getKthPaths_edge_disjoint wlsK "2" "4" 2 1 (by decide) (by decide)).2
    [wl24b] (by decide) [wl24] (by decide) wl24b (by decide)

/-! ## UCMP weight resolution (LinkState::resolveUcmpWeights) -/

/-- Prefix forwarding algorithms (thrift enum `PrefixForwardingAlgorithm`). -/
inductive PrefixForwardingAlgorithm
  | SP_ECMP
  | SP_UCMP_ADJ_WEIGHT_PROPAGATION
  | SP_UCMP_PREFIX_WEIGHT_PROPAGATION
  | KSP2_ED_ECMP
deriving DecidableEq

/-- One next-hop entry accumulated by `addNextHopLink` (LinkState.h):
interface, link, downstream node and resolved weight. -/
structure UcmpNextHop where
  iface : String
  link : Link
  nextNodeName : String
  weight : Int
deriving DecidableEq

/-- Per-node UCMP result (`DijkstraQUcmpNode::result`): the advertised weight
once resolved and the next-hop links. -/
structure UcmpNodeResult where
  weight : Option Int
  nextHopLinks : List UcmpNextHop
deriving DecidableEq

/-- A UCMP walk queue node: name, distance-from-leaves metric and result. -/
structure UcmpQNode where
  nodeName : String
  metric : Nat
  result : UcmpNodeResult
deriving DecidableEq

/-- Modelled from the spec: the UCMP min-priority queue extraction, like the
SPF one (`DijkstraQ` is declared in LinkState.h, absent from this
snapshot). -/
def extractMinUcmp : List UcmpQNode →
    Option (UcmpQNode × List UcmpQNode)
  | [] => none
  | x :: xs =>
      match extractMinUcmp xs with
      | none => some (x, [])
      | some (m, rest) =>
          if x.metric ≤ m.metric then some (x, xs) else some (m, x :: rest)

/-- Modelled from the spec: `normalizeNextHopWeights` (LinkState.h, absent)
reduces every next-hop weight by the greatest common divisor of all of
them. -/
def normalizeNextHopWeights (nhs : List UcmpNextHop) : List UcmpNextHop :=
  let g : Nat := nhs.foldl (fun acc nh => Nat.gcd acc nh.weight.natAbs) 0
  if g = 0 then nhs
  else nhs.map (fun nh => { nh with weight := nh.weight / (g : Int) })

/-- The advertised weight of a non-leaf node: sum of next-hop link weights
(AWP) or of next-hop prefix weights (PWP); other algorithms are rejected by a
CHECK in the source and contribute nothing here. -/
def advertisedWeightOf (algo : PrefixForwardingAlgorithm) (nodeName : String)
    (nhs : List UcmpNextHop) : Int :=
  nhs.foldl (fun acc nh =>
    match algo with
    | PrefixForwardingAlgorithm.SP_UCMP_ADJ_WEIGHT_PROPAGATION =>
        acc + nh.link.getWeightFromNode nodeName
    | PrefixForwardingAlgorithm.SP_UCMP_PREFIX_WEIGHT_PROPAGATION =>
        acc + nh.weight
    | _ => acc) 0

/-- Processing of one upstream path link in the UCMP walk: insert the
predecessor into the queue if absent (at the current metric plus the link
metric) and record a next-hop link toward the current node with the resolved
weight. -/
def ucmpAddToPrev (currName : String) (currMetric : Nat) (w : Int)
    (useLinkMetric : Bool) (q : List UcmpQNode) (pl : PathLink) :
    List UcmpQNode :=
  let linkMetric := if useLinkMetric then pl.link.getMetricFromNode pl.prevNode
    else 1
  let q1 := if (q.find? (fun x => decide (x.nodeName = pl.prevNode))).isSome
    then q
    else q ++ [⟨pl.prevNode, currMetric + linkMetric, ⟨none, []⟩⟩]
  q1.map (fun x => if x.nodeName = pl.prevNode then
      { x with result := { x.result with nextHopLinks :=
        x.result.nextHopLinks ++
          [⟨pl.link.getIfaceFromNode pl.prevNode, pl.link, currName, w⟩] } }
    else x)

/-- The walk of `resolveUcmpWeights` from the leaves toward the root: extract
the minimum node, resolve its advertised weight if it is not a leaf, push a
next-hop link to every upstream neighbor recorded in the SPF graph, normalize
and cache the node's result. -/
def ucmpLoop (spfGraph : List (String × NodeSpfResult))
    (algo : PrefixForwardingAlgorithm) (useLinkMetric : Bool) :
    Nat → List UcmpQNode → List (String × UcmpNodeResult) →
      List (String × UcmpNodeResult)
  | 0, _, acc => acc
  | fuel + 1, q, acc =>
      match extractMinUcmp q with
      | none => acc
      | some (curr, q1) =>
          let w := match curr.result.weight with
            | some w0 => w0
            | none => advertisedWeightOf algo curr.nodeName
                curr.result.nextHopLinks
          let pls := match alookup spfGraph curr.nodeName with
            | some nodeRes => nodeRes.pathLinks
            | none => []
          ucmpLoop spfGraph algo useLinkMetric fuel
            (pls.foldl (ucmpAddToPrev curr.nodeName curr.metric w
              useLinkMetric) q1)
            (acc ++ [(curr.nodeName,
              ⟨some w, normalizeNextHopWeights curr.result.nextHopLinks⟩)])

/-- The leaf initialization of `resolveUcmpWeights`: add every leaf present
in the SPF graph to the queue at metric 0 with its given weight, tracking the
common distance `spfMetric`; a leaf at a different distance aborts
(`return ucmpResult` with the empty result), embedded as `none`. -/
def initLeafQueue (spfGraph : List (String × NodeSpfResult)) :
    List (String × Int) → Option Nat → List UcmpQNode →
      Option (List UcmpQNode)
  | [], _, q => some q
  | (leafName, leafWeight) :: rest, spfMetric, q =>
      match alookup spfGraph leafName with
      | none => initLeafQueue spfGraph rest spfMetric q
      | some nodeRes =>
          match spfMetric with
          | none => initLeafQueue spfGraph rest (some nodeRes.metric)
              (q ++ [⟨leafName, 0, ⟨some leafWeight, []⟩⟩])
          | some m =>
              if m ≠ nodeRes.metric then none
              else initLeafQueue spfGraph rest (some m)
                  (q ++ [⟨leafName, 0, ⟨some leafWeight, []⟩⟩])

/-- Embedding of `LinkState::resolveUcmpWeights(spfGraph, leafNodeToWeights,
algo, useLinkMetric)`: abort with the empty result when the present leaves are
not equidistant from the root, otherwise walk the SPF graph from the leaves
toward the root. -/
def resolveUcmpWeights (spfGraph : List (String × NodeSpfResult))
    (leafNodeToWeights : List (String × Int))
    (algo : PrefixForwardingAlgorithm) (useLinkMetric : Bool) :
    List (String × UcmpNodeResult) :=
  match initLeafQueue spfGraph leafNodeToWeights none [] with
  | none => []
  | some q =>
      ucmpLoop spfGraph algo useLinkMetric
        (leafNodeToWeights.length +
          (spfGraph.map (fun nr => nr.2.pathLinks.length)).sum + 1) q []

theorem initLeafQueue_some_metric (spfGraph : List (String × NodeSpfResult)) :
    ∀ (leaves : List (String × Int)) (m : Nat) (q q' : List UcmpQNode),
      initLeafQueue spfGraph leaves (some m) q = some q' →
      ∀ x w, (x, w) ∈ leaves → ∀ r, alookup spfGraph x = some r →
        r.metric = m := by
  intro leaves
  induction leaves with
  | nil =>
      intro m q q' _ x w hx
      cases hx
  | cons leaf rest ih =>
      obtain ⟨leafName, leafWeight⟩ := leaf
      intro m q q' hinit x w hx r hr
      simp only [initLeafQueue] at hinit
      rcases hlook : alookup spfGraph leafName with _ | nodeRes
      · rw [hlook] at hinit
        rcases List.mem_cons.mp hx with hx1 | hx1
        · injection hx1 with hx2 hx3
          subst hx2
          rw [hlook] at hr
          cases hr
        · exact ih m q q' hinit x w hx1 r hr
      · rw [hlook] at hinit
        have hinit' : (if m ≠ nodeRes.metric then none
            else initLeafQueue spfGraph rest (some m)
              (q ++ [⟨leafName, 0, ⟨some leafWeight, []⟩⟩])) = some q' := hinit
        by_cases hm : m ≠ nodeRes.metric
        · rw [if_pos hm] at hinit'
          cases hinit'
        · rw [if_neg hm] at hinit'
          push_neg at hm
          rcases List.mem_cons.mp hx with hx1 | hx1
          · injection hx1 with hx2 hx3
            subst hx2
            rw [hlook] at hr
            injection hr with hr1
            subst hr1
            exact hm.symm
          · exact ih m _ q' hinit' x w hx1 r hr

theorem initLeafQueue_none_metric (spfGraph : List (String × NodeSpfResult)) :
    ∀ (leaves : List (String × Int)) (q q' : List UcmpQNode),
      initLeafQueue spfGraph leaves none q = some q' →
      ∀ a wa b wb, (a, wa) ∈ leaves → (b, wb) ∈ leaves →
        ∀ ra rb, alookup spfGraph a = some ra →
          alookup spfGraph b = some rb → ra.metric = rb.metric := by
  intro leaves
  induction leaves with
  | nil =>
      intro q q' _ a wa b wb ha
      cases ha
  | cons leaf rest ih =>
      obtain ⟨leafName, leafWeight⟩ := leaf
      intro q q' hinit a wa b wb ha hb ra rb hra hrb
      simp only [initLeafQueue] at hinit
      rcases hlook : alookup spfGraph leafName with _ | nodeRes
      · rw [hlook] at hinit
        have ha' : (a, wa) ∈ rest := by
          rcases List.mem_cons.mp ha with h1 | h1
          · injection h1 with h2 h3
            subst h2
            rw [hlook] at hra
            cases hra
          · exact h1
        have hb' : (b, wb) ∈ rest := by
          rcases List.mem_cons.mp hb with h1 | h1
          · injection h1 with h2 h3
            subst h2
            rw [hlook] at hrb
            cases hrb
          · exact h1
        exact ih q q' hinit a wa b wb ha' hb' ra rb hra hrb
      · rw [hlook] at hinit
        have hmem : ∀ x w, (x, w) ∈ rest → ∀ r, alookup spfGraph x = some r →
            r.metric = nodeRes.metric :=
          fun x w hx r hr =>
            initLeafQueue_some_metric spfGraph rest nodeRes.metric _ q' hinit
              x w hx r hr
        have hone : ∀ x w, (x, w) ∈ (leafName, leafWeight) :: rest →
            ∀ r, alookup spfGraph x = some r → r.metric = nodeRes.metric := by
          intro x w hx r hr
          rcases List.mem_cons.mp hx with h1 | h1
          · injection h1 with h2 h3
            subst h2
            rw [hlook] at hr
            injection hr with hr1
            subst hr1
            rfl
          · exact hmem x w h1 r hr
        rw [hone a wa ha ra hra, hone b wb hb rb hrb]

/-- C6: `LinkState::resolveUcmpWeights` returns an empty result whenever two
leaf nodes of `leafNodeToWeights` that are present in the given SPF graph
have different metrics from the root; all present leaves must be equidistant
for any weights to be resolved. -/
theorem resolveUcmpWeights_unequal_leaves_empty
    (spfGraph : List (String × NodeSpfResult)) (leaves : List (String × Int))
    (algo : PrefixForwardingAlgorithm) (u : Bool) (a b : String)
    (wa wb : Int) (ra rb : NodeSpfResult)
    (ha : (a, wa) ∈ leaves) (hb : (b, wb) ∈ leaves)
    (hra : alookup spfGraph a = some ra) (hrb : alookup spfGraph b = some rb)
    (hne : ra.metric ≠ rb.metric) :
    resolveUcmpWeights spfGraph leaves algo u = [] := by
  unfold resolveUcmpWeights
  rcases hinit : initLeafQueue spfGraph leaves none [] with _ | q
  · rfl
  · exact absurd (initLeafQueue_none_metric spfGraph leaves [] q hinit
      a wa b wb ha hb ra rb hra hrb) hne

/-- Witness for `resolveUcmpWeights_unequal_leaves_empty` on a two-node SPF
graph whose leaves sit at distances 1 and 2. -/
theorem resolveUcmpWeights_unequal_leaves_empty_witness :
    resolveUcmpWeights
      [("x", ⟨1, [], []⟩), ("y", ⟨2, [], []⟩)] [("x", 1), ("y", 1)]
      PrefixForwardingAlgorithm.SP_UCMP_ADJ_WEIGHT_PROPAGATION true = [] :=
  resolveUcmpWeights_unequal_leaves_empty
    [("x", ⟨1, [], []⟩), ("y", ⟨2, [], []⟩)] [("x", 1), ("y", 1)]
    PrefixForwardingAlgorithm.SP_UCMP_ADJ_WEIGHT_PROPAGATION true
    "x" "y" 1 1 ⟨1, [], []⟩ ⟨2, [], []⟩
    (by decide) (by decide) (by decide) (by decide) (by decide)

end openr
